import Mathlib

/-!
Verification development for the schema-introspection and filter-validation
helpers of the `smart-api-common` package.

The TypeScript sources embedded here are:
  * `src/helpers/utils/index.ts` — `sequelizeOperatorValidators`,
    `validateOperatorInput`, `validateOptions`, `nestedToDotObject`,
    `setNestedKey`, `getFilterable`, `getSortable`, `getQueryable`, `getPath`;
  * `src/zod/extensions/index.ts` — the annotation carrier stored in a
    schema node's `description` slot (`filterable`, `sortable`, `queryable`,
    `path`) and the predicates `isFilterable`/`isSortable`/`isQueryable`/
    `isPath` reading it.

Modelling conventions:
  * A zod schema graph is a finite association list from node identities
    (naturals standing for JS object identity) to node structures.  `ZodLazy`
    is a node holding an optional resolved identity (`none` models a getter
    that throws when invoked).  Cyclic schemas are expressed by identities
    referring back to earlier nodes.
  * JS plain objects used as result records are association lists with JS
    assignment semantics: writing an existing key updates it in place
    (keeping its position), writing a fresh key appends.
  * The traversals carry a fuel parameter and return `none` when fuel runs
    out; termination claims are theorems that sufficient fuel always yields
    `some`.  The `WeakSet` of visited nodes is a list of identities threaded
    through the traversal exactly as the shared mutable set is in JS.
-/


/-- The annotation object stored via `.describe(...)` by the extension
methods `filterable()`, `sortable()`, `queryable()`, `path()`.  An
unannotated (or never-extended) node is modelled by the default value, on
which every predicate reads `false`/absent exactly as in the source. -/
structure Description where
  filterable : Bool := false
  sortable : Bool := false
  queryable : Bool := false
  path : Option (List String) := none
deriving Repr, DecidableEq

/-- A zod schema node.  `obj` carries its `shape` as an ordered list of
(field name, child identity); `arr` carries the element node's identity
(`_def.type`); `lazy` carries the getter's outcome: `some i` when the getter
returns node `i`, `none` when it throws. -/
inductive SchemaNode where
  | leaf (d : Description)
  | obj (shape : List (String × Nat)) (d : Description)
  | arr (elem : Nat) (d : Description)
  | lazy (res : Option Nat) (d : Description)
deriving Repr, DecidableEq

/-- The annotation carrier of a node (its `description` slot). -/
def SchemaNode.desc : SchemaNode → Description
  | .leaf d => d
  | .obj _ d => d
  | .arr _ d => d
  | .lazy _ d => d

/-- A schema graph: node identities mapped to nodes. -/
structure Graph where
  nodes : List (Nat × SchemaNode)
deriving Repr

/-- Dereference a node identity (JS object dereference never fails; a
`none` here only arises for identities not in the graph, which the
traversals treat as the `if (!value) continue` guard). -/
def Graph.find? (g : Graph) (i : Nat) : Option SchemaNode :=
  g.nodes.lookup i

/-- A value in a capability tree: `true` for a flagged leaf or a nested
(sub)tree for a composite field. -/
inductive CapVal where
  | tt : CapVal
  | sub : List (String × CapVal) → CapVal
deriving Repr

/-- A capability tree (`Record<string, unknown>` in the source). -/
abbrev CapMap := List (String × CapVal)

/-- A path index (`Record<string, string>` in the source). -/
abbrev PathMap := List (String × String)

/-- JS object property assignment `m[key] = v`: update in place (keeping the
key's position) when the key exists, append otherwise. -/
def assign {α : Type} (m : List (String × α)) (key : String) (v : α) :
    List (String × α) :=
  match m with
  | [] => [(key, v)]
  | e :: rest => if e.1 == key then (key, v) :: rest else e :: assign rest key v

/-- JS `Array.prototype.join('.')`. -/
def joinDots : List String → String
  | [] => ""
  | [s] => s
  | s :: rest => s ++ "." ++ joinDots rest

/-- Split a character list at `'.'` boundaries into segments
(`s.split('.')`). -/
def splitDotAux : List Char → List Char → List String
  | [], cur => [String.mk cur.reverse]
  | c :: rest, cur =>
    if c = '.' then String.mk cur.reverse :: splitDotAux rest []
    else splitDotAux rest (c :: cur)

/-- JS `s.split('.').pop()`: the last dot-separated segment of a key. -/
def lastSeg (s : String) : String :=
  (splitDotAux s.data []).getLastD ""

mutual
/-- A capability value is pruned when it is `true` or a non-empty pruned
tree. -/
def prunedVal : CapVal → Bool
  | .tt => true
  | .sub m => !m.isEmpty && prunedMap m

/-- Every value of the map is pruned. -/
def prunedMap : List (String × CapVal) → Bool
  | [] => true
  | e :: rest => prunedVal e.2 && prunedMap rest
end

/-! ### Generic machinery for the `for (const [key, value] of entries)` loops

Each traversal's loop body either returns early (out of fuel, modelled as
`none`) or produces an updated accumulator state; the loop is a fold over
the shape's entries. -/

def entriesFold {α σ : Type} (step : α → σ → Option σ) :
    List α → σ → Option σ
  | [], st => some st
  | e :: rest, st =>
    match step e st with
    | none => none
    | some st' => entriesFold step rest st'

/-! ### JS values and operator validation

Embedding of `sequelizeOperatorValidators`, `validateOperatorInput`,
`nestedToDotObject` and `validateOptions`.  A JS runtime value is modelled
by `JSValue`; the zod validators used by the source only inspect the shape
of a value, so each validator is a Boolean predicate. -/

/-- A JS runtime value as far as the validators inspect it.  `date` stands
for a `Date` instance (an object with no own enumerable keys). -/
inductive JSValue where
  | str (s : String)
  | num (n : Int)
  | bool (b : Bool)
  | null
  | date
  | arr (elems : List JSValue)
  | obj (fields : List (String × JSValue))
deriving Repr

/-- Validator `z.string()`. -/
def zString : JSValue → Bool
  | .str _ => true
  | _ => false

/-- Validator `z.number()`. -/
def zNumber : JSValue → Bool
  | .num _ => true
  | _ => false

/-- Validator `z.boolean()`. -/
def zBoolean : JSValue → Bool
  | .bool _ => true
  | _ => false

/-- Validator `z.null()`. -/
def zNull : JSValue → Bool
  | .null => true
  | _ => false

/-- Validator `z.date()`. -/
def zDate : JSValue → Bool
  | .date => true
  | _ => false

/-- Validator `z.array(z.any())`. -/
def zArrayAny : JSValue → Bool
  | .arr _ => true
  | _ => false

/-- Validator `z.tuple([z.any(), z.any()])` — an array of exactly two elements. -/
def zTupleAnyAny : JSValue → Bool
  | .arr l => l.length == 2
  | _ => false

/-- Validator `z.union([...])`. -/
def zUnion (vs : List (JSValue → Bool)) (v : JSValue) : Bool :=
  vs.any (fun f => f v)

/-- Validator `z.string().refine((val) => !val.includes('%'), ...)`; `includes` is
membership of the character among the string's characters. -/
def zStringNoPercent : JSValue → Bool
  | .str s => !(s.data.contains '%')
  | _ => false

/-- The fixed operator vocabulary with its validators
(`sequelizeOperatorValidators`, utils lines 11-41). -/
def sequelizeOperatorValidators : List (String × (JSValue → Bool)) :=
  [ ("eq", zUnion [zString, zNumber, zBoolean, zNull, zDate]),
    ("ne", zUnion [zString, zNumber, zBoolean, zNull, zDate]),
    ("gt", zUnion [zNumber, zDate, zString]),
    ("gte", zUnion [zNumber, zDate, zString]),
    ("lt", zUnion [zNumber, zDate, zString]),
    ("lte", zUnion [zNumber, zDate, zString]),
    ("in", zArrayAny),
    ("notIn", zArrayAny),
    ("like", zStringNoPercent),
    ("notLike", zStringNoPercent),
    ("iLike", zStringNoPercent),
    ("notILike", zStringNoPercent),
    ("between", zTupleAnyAny),
    ("notBetween", zTupleAnyAny),
    ("is", zUnion [zNull, zBoolean]),
    ("not", zUnion [zString, zNumber, zBoolean, zNull]),
    ("or", zArrayAny),
    ("and", zArrayAny),
    ("startsWith", zString),
    ("endsWith", zString),
    ("substring", zString) ]

/-- The operator names of the vocabulary. -/
def operatorNames : List String := sequelizeOperatorValidators.map Prod.fst

/-- The member names every plain object literal inherits from
`Object.prototype`.  A property read at one of these keys returns a truthy
value (a function, or `Object.prototype` itself for `__proto__`) through
the prototype chain, although the key is not an own key of the record. -/
def objectPrototypeKeys : List String :=
  ["constructor", "hasOwnProperty", "isPrototypeOf", "propertyIsEnumerable",
   "toLocaleString", "toString", "valueOf", "__defineGetter__",
   "__defineSetter__", "__lookupGetter__", "__lookupSetter__", "__proto__"]

/-- Truthiness of the JS property read `sequelizeOperatorValidators[key]`:
true for the vocabulary's own keys and for the `Object.prototype` member
names reached through the prototype chain. -/
def operatorTruthy (key : String) : Bool :=
  (sequelizeOperatorValidators.lookup key).isSome ||
    objectPrototypeKeys.contains key

/-- An error value observable from `validateOptions` /
`validateOperatorInput`: the string error `Invalid key: <k>` or a
`ZodError` (whose message list the callers treat as opaque). -/
inductive VError where
  | invalidKey (k : String)
  | zodError
deriving Repr, DecidableEq

/-- Observable outcome of a validation call: `ok` models the tuple
`[true, null]`, `err e` models the tuple `[null, e]`, and `raised msg`
models a thrown exception. -/
inductive VResult where
  | ok
  | err (e : VError)
  | raised (msg : String)
deriving Repr, DecidableEq

/-- Function `validateOperatorInput` (utils lines 43-53).  The lookup
`sequelizeOperatorValidators[operator]` is a truthiness test over the
prototype chain: an own key yields the zod validator and the tuple result
of parsing; an `Object.prototype` member name yields an inherited truthy
non-validator, so `schema.parse(value)` throws a `TypeError`, and the
catch block's `err.errors.map` rethrows a `TypeError` (the caught error
has no `errors` field); any other name is falsy and triggers the
`Unsupported operator` throw. -/
def validateOperatorInput (operator : String) (value : JSValue) : VResult :=
  match sequelizeOperatorValidators.lookup operator with
  | some schema => if schema value then .ok else .err .zodError
  | none =>
    if objectPrototypeKeys.contains operator then
      .raised "Cannot read properties of undefined (reading 'map')"
    else
      .raised ("Unsupported operator: " ++ operator)

/-- Function `nestedToDotObject` (utils lines 91-111): flattens one level of plain
object nesting into dotted keys.  A `Date` value passes the
plain-object test in JS (`typeof === 'object'`, not null, not array) but
has no own enumerable keys, so it contributes nothing. -/
def nestedToDotObject (o : List (String × JSValue)) : List (String × JSValue) :=
  o.foldl (fun result p =>
    match p.2 with
    | .obj fields =>
        fields.foldl (fun r q => assign r (p.1 ++ "." ++ q.1) q.2) result
    | .date => result
    | v => assign result p.1 v) []

/-- JS `Object.keys(v)`: `none` models the `TypeError` thrown on `null`;
strings and arrays expose index keys; other primitives have none. -/
def objectKeys : JSValue → Option (List String)
  | .null => none
  | .str s => some ((List.range s.length).map toString)
  | .arr l => some ((List.range l.length).map toString)
  | .obj fields => some (fields.map Prod.fst)
  | _ => some []

/-- JS `m.hasOwnProperty(k)`. -/
def hasOwn (m : List (String × JSValue)) (k : String) : Bool :=
  (m.lookup k).isSome

/-- The `for...of` loop of `validateOptions` (utils lines 68-87).  Note the
faithful rendering of the source's `forEach` over nested keys: the callback
returns `[null, ...]` but `forEach` discards callback results, so the
branch has no observable effect besides evaluating `Object.keys(value)`
(which throws on `null`). -/
def validateOptionsLoop (nestedFilterMap : List (String × JSValue)) :
    List (String × JSValue) → VResult
  | [] => .ok
  | (key, value) :: rest =>
    if !hasOwn nestedFilterMap key && !operatorTruthy key then
      .err (.invalidKey key)
    else if operatorTruthy key then
      match validateOperatorInput key value with
      | .ok => validateOptionsLoop nestedFilterMap rest
      | r => r
    else
      match objectKeys value with
      | none => .raised "Cannot convert undefined or null to object"
      | some ks =>
        if ks.length > 0 then
          validateOptionsLoop nestedFilterMap rest
        else if !hasOwn nestedFilterMap key then
          .err (.invalidKey key)
        else
          validateOptionsLoop nestedFilterMap rest

/-- Function `validateOptions` (utils lines 63-89). -/
def validateOptions (clientFilter filterMap : List (String × JSValue)) :
    VResult :=
  validateOptionsLoop (nestedToDotObject filterMap) clientFilter

/-- Modelled from the spec's operator-vocabulary table (section 4.3), NOT
from the code: the expected operand shape of each operator, written from
the table's words.  Compared against the code's validators in the
C5 theorem. -/
def specOperandShape (op : String) (v : JSValue) : Bool :=
  if op == "eq" || op == "ne" then
    -- scalar: string, number, boolean, null, or date
    zString v || zNumber v || zBoolean v || zNull v || zDate v
  else if op == "gt" || op == "gte" || op == "lt" || op == "lte" then
    -- number, date, or string
    zNumber v || zDate v || zString v
  else if op == "in" || op == "notIn" then
    -- array of any
    zArrayAny v
  else if op == "like" || op == "notLike" || op == "iLike" || op == "notILike" then
    -- string not containing the wildcard meta-character (percent sign)
    match v with
    | .str s => !(s.data.contains '%')
    | _ => false
  else if op == "between" || op == "notBetween" then
    -- 2-tuple of any
    match v with
    | .arr l => l.length == 2
    | _ => false
  else if op == "is" then
    -- null or boolean
    zNull v || zBoolean v
  else if op == "not" then
    -- scalar: string, number, boolean, null
    zString v || zNumber v || zBoolean v || zNull v
  else if op == "or" || op == "and" then
    -- array of any (sub-conditions)
    zArrayAny v
  else if op == "startsWith" || op == "endsWith" || op == "substring" then
    zString v
  else
    false

/-- Test for the JS value `null`. -/
def isNullV : JSValue → Bool
  | .null => true
  | _ => false

/-- An entry of the client filter on which the `validateOptions` loop
continues without halting: a key on which the truthy operator lookup fires
and whose operand validates successfully (which rules out the
`Object.prototype` member names, on which `validateOperatorInput` throws),
or otherwise a key of the (dot-flattened) filter map whose value is not
`null` (a `null` value makes `Object.keys` throw). -/
def goodEntry (nfm : List (String × JSValue)) (p : String × JSValue) : Bool :=
  if operatorTruthy p.1 then
    decide (validateOperatorInput p.1 p.2 = VResult.ok)
  else
    hasOwn nfm p.1 && !isNullV p.2

/-! ### The schema traversals

`getFilterable`, `getSortable`, `getQueryable`, `getPath`, with a fuel
parameter making the recursion manifestly total; `none` means the fuel ran
out.  The `WeakSet` of visited nodes (`getFilterable`/`getPath` only) is
threaded through the computation, mirroring the mutable set shared by all
recursive calls in the source. -/

/-- The node identities of a graph. -/
def Graph.ids (g : Graph) : List Nat := g.nodes.map Prod.fst

/-- How many graph nodes are not yet in the visited set. -/
def unvisitedCount (g : Graph) (vis : List Nat) : Nat :=
  (g.ids.filter (fun i => !vis.contains i)).length

/-- Is the node a `ZodObject`? -/
def isObjNode : SchemaNode → Bool
  | .obj _ _ => true
  | _ => false

/-- Is the node a `ZodLazy` whose getter throws? -/
def isThrowingLazy : SchemaNode → Bool
  | .lazy none _ => true
  | _ => false

/-- The composite target of a child as discovered by `getFilterable`'s
branch chain (utils lines 155-193): a lazy child resolving to an object or
to an array of objects, a plain object child, or an array-of-object child.
`none` means the child falls through to the leaf capability check. -/
def compositeTarget (g : Graph) (cid : Nat) (node : SchemaNode) : Option Nat :=
  match node with
  | .obj _ _ => some cid
  | .arr eid _ =>
    match g.find? eid with
    | some (.obj _ _) => some eid
    | _ => none
  | .lazy (some rid) _ =>
    match g.find? rid with
    | some (.obj _ _) => some rid
    | some (.arr eid _) =>
      match g.find? eid with
      | some (.obj _ _) => some eid
      | _ => none
    | _ => none
  | _ => none

/-- One iteration of `getFilterable`'s loop (utils lines 150-202). -/
def filterStep (g : Graph) (rec : Nat → List Nat → Option (CapMap × List Nat))
    (e : String × Nat) (st : CapMap × List Nat) : Option (CapMap × List Nat) :=
  match g.find? e.2 with
  | none => some st
  | some node =>
    if isThrowingLazy node then some st
    else
      match compositeTarget g e.2 node with
      | some tid =>
        if tid ∈ st.2 then some st
        else
          match rec tid st.2 with
          | none => none
          | some nv =>
            some (if nv.1.isEmpty then st.1 else assign st.1 e.1 (.sub nv.1),
              nv.2)
      | none =>
        some (if node.desc.filterable then assign st.1 e.1 .tt else st.1, st.2)

/-- Function `getFilterable` (utils lines 139-205). -/
def getFilterableF (g : Graph) :
    Nat → Nat → List Nat → Option (CapMap × List Nat)
  | 0, _, _ => none
  | fuel + 1, i, vis =>
    if i ∈ vis then some ([], vis)
    else
      match g.find? i with
      | some (.obj shape _) =>
        entriesFold (filterStep g (getFilterableF g fuel)) shape ([], i :: vis)
      | _ => some ([], i :: vis)

/-- One iteration of `getSortable`'s loop (utils lines 212-226): only a
plain `ZodObject` child is recursed into. -/
def sortStep (g : Graph) (rec : Nat → Option CapMap) (e : String × Nat)
    (acc : CapMap) : Option CapMap :=
  match g.find? e.2 with
  | none => some acc
  | some node =>
    if isObjNode node then
      match rec e.2 with
      | none => none
      | some n => some (if n.isEmpty then acc else assign acc e.1 (.sub n))
    else some (if node.desc.sortable then assign acc e.1 .tt else acc)

/-- Function `getSortable` (utils lines 207-229). -/
def getSortableF (g : Graph) : Nat → Nat → Option CapMap
  | 0, _ => none
  | fuel + 1, i =>
    match g.find? i with
    | some (.obj shape _) =>
      entriesFold (sortStep g (getSortableF g fuel)) shape []
    | _ => some []

/-- One iteration of `getQueryable`'s loop (utils lines 236-261): only a
plain `ZodObject` child is recursed into; a queryable leaf with a truthy
`path` annotation records `true` under each alias segment instead of its
own key. -/
def qStep (g : Graph) (rec : Nat → Option CapMap) (e : String × Nat)
    (acc : CapMap) : Option CapMap :=
  match g.find? e.2 with
  | none => some acc
  | some node =>
    if isObjNode node then
      match rec e.2 with
      | none => none
      | some n => some (if n.isEmpty then acc else assign acc e.1 (.sub n))
    else
      some (if node.desc.queryable then
          match node.desc.path with
          | some ps => ps.foldl (fun a p => assign a p .tt) acc
          | none => assign acc e.1 .tt
        else acc)

/-- Function `getQueryable` (utils lines 231-264). -/
def getQueryableF (g : Graph) : Nat → Nat → Option CapMap
  | 0, _ => none
  | fuel + 1, i =>
    match g.find? i with
    | some (.obj shape _) =>
      entriesFold (qStep g (getQueryableF g fuel)) shape []
    | _ => some []

/-- Which of `getPath`'s four composite branches applies, determining how a
nested result's entries are copied into the parent map. -/
inductive CopyMode where
  | fromObj
  | fromLazyObj
  | fromArr
  | fromLazyArr
deriving Repr, DecidableEq

/-- The composite target and branch of a child in `getPath`
(utils lines 284-334). -/
def pathTarget (g : Graph) (cid : Nat) (node : SchemaNode) :
    Option (Nat × CopyMode) :=
  match node with
  | .obj _ _ => some (cid, .fromObj)
  | .arr eid _ =>
    match g.find? eid with
    | some (.obj _ _) => some (eid, .fromArr)
    | _ => none
  | .lazy (some rid) _ =>
    match g.find? rid with
    | some (.obj _ _) => some (rid, .fromLazyObj)
    | some (.arr eid _) =>
      match g.find? eid with
      | some (.obj _ _) => some (eid, .fromLazyArr)
      | _ => none
    | _ => none
  | _ => none

/-- Copy one entry of a nested `getPath` result into the parent map,
according to the branch: a plain object child copies the nested key and a
shortened `key.lastSegment` key; a lazy object child copies only the
shortened key; array children additionally map the physical path to
itself. -/
def copyNested (mode : CopyMode) (key : String) (acc : PathMap)
    (p : String × String) : PathMap :=
  match mode with
  | .fromObj => assign (assign acc p.1 p.2) (key ++ "." ++ lastSeg p.1) p.2
  | .fromLazyObj => assign acc (key ++ "." ++ lastSeg p.1) p.2
  | .fromArr =>
    assign (assign (assign acc p.1 p.2) (key ++ "." ++ lastSeg p.1) p.2) p.2 p.2
  | .fromLazyArr => assign (assign acc (key ++ "." ++ lastSeg p.1) p.2) p.2 p.2

/-- One iteration of `getPath`'s loop (utils lines 278-346).  A
non-composite child with a `path` annotation records its full dotted key
mapped to the alias target prefixed by the parent path; otherwise the bare
key is mapped to the full dotted path. -/
def pathStep (g : Graph) (pk : List String)
    (rec : Nat → List String → List Nat → Option (PathMap × List Nat))
    (e : String × Nat) (st : PathMap × List Nat) : Option (PathMap × List Nat) :=
  match g.find? e.2 with
  | none => some st
  | some node =>
    if isThrowingLazy node then some st
    else
      match pathTarget g e.2 node with
      | some tm =>
        if tm.1 ∈ st.2 then some st
        else
          match rec tm.1 (pk ++ [e.1]) st.2 with
          | none => none
          | some nv => some (nv.1.foldl (copyNested tm.2 e.1) st.1, nv.2)
      | none =>
        match node.desc.path with
        | some ps =>
          some (assign st.1 (joinDots (pk ++ [e.1])) (joinDots (pk ++ ps)),
            st.2)
        | none => some (assign st.1 e.1 (joinDots (pk ++ [e.1])), st.2)

/-- Function `getPath` (utils lines 266-348). -/
def getPathF (g : Graph) :
    Nat → Nat → List String → List Nat → Option (PathMap × List Nat)
  | 0, _, _, _ => none
  | fuel + 1, i, pk, vis =>
    if i ∈ vis then some ([], vis)
    else
      match g.find? i with
      | some (.obj shape _) =>
        entriesFold (pathStep g pk (getPathF g fuel)) shape ([], i :: vis)
      | _ => some ([], i :: vis)

/-- The `shape` of an object node (empty for any other node). -/
def shapeOf : SchemaNode → List (String × Nat)
  | .obj shape _ => shape
  | _ => []

/-- Does the identity dereference to a `ZodObject`? -/
def objAt (g : Graph) (i : Nat) : Bool :=
  match g.find? i with
  | some n => isObjNode n
  | none => false

/-- A rank function witnessing that the plain-object child relation of the
graph is acyclic, i.e. that every cycle of the schema graph passes through
a deferred (`ZodLazy`) node: each plain-object child of an object node has
strictly smaller rank. -/
def ObjRanked (g : Graph) (rank : Nat → Nat) : Prop :=
  ∀ p ∈ g.nodes, ∀ e ∈ shapeOf p.2, objAt g e.2 = true → rank e.2 < rank p.1

/-- A mutually-lazy cyclic schema graph: node 0 (a User-like object) has a
`company` child deferring to node 1, whose `owner` child defers back to
node 0; both objects carry an annotated leaf. -/
def gCyc : Graph := ⟨[
  (0, .obj [("name", 4), ("company", 2)] {}),
  (2, .lazy (some 1) {}),
  (1, .obj [("title", 5), ("owner", 3)] {}),
  (3, .lazy (some 0) {}),
  (4, .leaf { filterable := true, sortable := true, queryable := true }),
  (5, .leaf { filterable := true, sortable := true, queryable := true })]⟩

/-- A schema whose middle child is a deferred node with a throwing
resolver, between two filterable leaves. -/
def gThrow : Graph := ⟨[
  (0, .obj [("a", 1), ("bad", 2), ("b", 3)] {}),
  (1, .leaf { filterable := true }),
  (2, .lazy none {}),
  (3, .leaf { filterable := true })]⟩

/-- Over-approximation of the keys a `getQueryable` loop iteration can
write: the entry's key for a composite child or a plain queryable leaf, and
the alias segments for a queryable leaf carrying a `path` annotation. -/
def qWrites (g : Graph) (e : String × Nat) : List String :=
  match g.find? e.2 with
  | none => []
  | some n =>
    if isObjNode n then [e.1]
    else if n.desc.queryable then
      match n.desc.path with
      | some ps => ps
      | none => [e.1]
    else []

/-- Schema on which `getQueryable` violates the pruning equivalence: child
`a` is a composite whose recursion is empty, and sibling leaf `b` is
queryable with the path alias `['a']`. -/
def gC2 : Graph := ⟨[
  (0, .obj [("a", 1), ("b", 2)] {}),
  (1, .obj [("x", 3)] {}),
  (3, .leaf {}),
  (2, .leaf { queryable := true, path := some ["a"] })]⟩

/-- A plain nested schema used as witness input: a flagged leaf and a
composite child holding a flagged leaf. -/
def gNest : Graph := ⟨[
  (0, .obj [("name", 1), ("profile", 2)] {}),
  (1, .leaf { filterable := true, sortable := true, queryable := true }),
  (2, .obj [("bio", 3)] {}),
  (3, .leaf { filterable := true, sortable := true, queryable := true })]⟩

/-- Schema with an array-of-object child whose element carries a queryable
leaf. -/
def gC3 : Graph := ⟨[
  (0, .obj [("items", 1)] {}),
  (1, .arr 2 {}),
  (2, .obj [("name", 3)] {}),
  (3, .leaf { queryable := true, sortable := true })]⟩

/-- A schema exercising all composite child kinds: a plain object child
`o`, a deferred child `lz` resolving to an object, an array-of-object child
`ar`, and a flagged plain leaf `leafF`. -/
def gKinds : Graph := ⟨[
  (0, .obj [("o", 1), ("lz", 2), ("ar", 4), ("leafF", 6)] {}),
  (1, .obj [("x", 7)] {}),
  (2, .lazy (some 3) {}),
  (3, .obj [("y", 8)] {}),
  (4, .arr 5 {}),
  (5, .obj [("z", 9)] {}),
  (6, .leaf { filterable := true, sortable := true, queryable := true }),
  (7, .leaf { filterable := true, sortable := true, queryable := true }),
  (8, .leaf { filterable := true, sortable := true, queryable := true }),
  (9, .leaf { filterable := true, sortable := true, queryable := true })]⟩

/-- Schema where a second leaf aliases TO the first leaf's declared key. -/
def gC4 : Graph := ⟨[
  (0, .obj [("mail", 1), ("other", 2)] {}),
  (1, .leaf { queryable := true, path := some ["email"] }),
  (2, .leaf { queryable := true, path := some ["mail"] })]⟩

/-- Schema with a plain queryable leaf and an alias-annotated queryable
leaf (`mail` aliased to `email`). -/
def gAlias : Graph := ⟨[
  (0, .obj [("name", 1), ("mail", 2)] {}),
  (1, .leaf { queryable := true }),
  (2, .leaf { queryable := true, path := some ["email"] })]⟩

/-! ### Claim C9: the path index built by `getPath` -/

/-- A child that `getPath` treats as non-composite: unresolvable, a
throwing lazy, or any node whose branch falls through to the leaf
handling. -/
def nonComposite (g : Graph) (cid : Nat) : Bool :=
  match g.find? cid with
  | none => true
  | some n => isThrowingLazy n || (pathTarget g cid n).isNone

/-- The single map update `getPath` performs for a non-composite child. -/
def leafWrite (g : Graph) (pk : List String) (acc : PathMap)
    (e : String × Nat) : PathMap :=
  match g.find? e.2 with
  | none => acc
  | some n =>
    if isThrowingLazy n then acc
    else
      match n.desc.path with
      | some ps => assign acc (joinDots (pk ++ [e.1])) (joinDots (pk ++ ps))
      | none => assign acc e.1 (joinDots (pk ++ [e.1]))

/-- The key written by `leafWrite` (empty when nothing is written). -/
def leafWriteKey (g : Graph) (pk : List String) (e : String × Nat) :
    List String :=
  match g.find? e.2 with
  | none => []
  | some n =>
    if isThrowingLazy n then []
    else
      match n.desc.path with
      | some _ => [joinDots (pk ++ [e.1])]
      | none => [e.1]

/-- Depth-3 schema plus a root alias leaf. -/
def gC9 : Graph := ⟨[
  (0, .obj [("a", 1), ("mail", 9)] {}),
  (1, .obj [("b", 2)] {}),
  (2, .obj [("c", 3)] {}),
  (3, .leaf {}),
  (9, .leaf { path := some ["email"] })]⟩

/-- Root schema with a plain leaf and an alias leaf, as witness input. -/
def gAliasP : Graph := ⟨[
  (0, .obj [("name", 1), ("mail", 2)] {}),
  (1, .leaf {}),
  (2, .leaf { path := some ["email"] })]⟩


theorem lookup_assign_self {α : Type} (m : List (String × α)) (k : String) (v : α) :
    (assign m k v).lookup k = some v := by
  induction m with
  | nil => simp [assign]
  | cons e rest ih =>
    obtain ⟨a, b⟩ := e
    by_cases he : a = k
    · simp [assign, he, List.lookup_cons]
    · have h1 : (a == k) = false := by simp [he]
      have h2 : (k == a) = false := by simp [Ne.symm he]
      simp [assign, h1, h2, List.lookup_cons, ih]

theorem lookup_assign_ne {α : Type} (m : List (String × α)) (k q : String) (v : α)
    (hq : q ≠ k) : (assign m k v).lookup q = m.lookup q := by
  have hqk : (q == k) = false := by simp [hq]
  induction m with
  | nil => simp [assign, List.lookup_cons, hqk]
  | cons e rest ih =>
    obtain ⟨a, b⟩ := e
    by_cases he : a = k
    · subst he
      simp [assign, List.lookup_cons, hqk]
    · have h1 : (a == k) = false := by simp [he]
      simp [assign, h1, List.lookup_cons, ih]

theorem entriesFold_nil {α σ : Type} (step : α → σ → Option σ) (st : σ) :
    entriesFold step [] st = some st := rfl

theorem entriesFold_cons {α σ : Type} (step : α → σ → Option σ) (e : α)
    (rest : List α) (st : σ) :
    entriesFold step (e :: rest) st =
      match step e st with
      | none => none
      | some st' => entriesFold step rest st' := rfl

theorem entriesFold_split {α σ : Type} (step : α → σ → Option σ)
    (pre post : List α) (e : α) (st out : σ)
    (h : entriesFold step (pre ++ e :: post) st = some out) :
    ∃ st1 st2, entriesFold step pre st = some st1 ∧ step e st1 = some st2 ∧
      entriesFold step post st2 = some out := by
  induction pre generalizing st with
  | nil =>
    simp only [List.nil_append, entriesFold_cons] at h
    cases hstep : step e st with
    | none => rw [hstep] at h; exact absurd h (by simp)
    | some st2 =>
      rw [hstep] at h
      exact ⟨st, st2, rfl, hstep, h⟩
  | cons e0 pre ih =>
    simp only [List.cons_append, entriesFold_cons] at h
    cases hstep : step e0 st with
    | none => rw [hstep] at h; exact absurd h (by simp)
    | some st' =>
      rw [hstep] at h
      obtain ⟨st1, st2, h1, h2, h3⟩ := ih st' h
      refine ⟨st1, st2, ?_, h2, h3⟩
      simp [entriesFold_cons, hstep, h1]

/-- Frame rule: if no entry of the loop writes the key `q` (with respect to
a per-entry over-approximation `ws` of written keys), the loop leaves the
value recorded under `q` unchanged. -/
theorem entriesFold_frame {α σ β : Type} (step : α → σ → Option σ)
    (proj : σ → List (String × β)) (ws : α → List String)
    (hw : ∀ e st st', step e st = some st' → ∀ q, q ∉ ws e →
      (proj st').lookup q = (proj st).lookup q) :
    ∀ (entries : List α) (st st' : σ),
      entriesFold step entries st = some st' →
      ∀ q, (∀ e ∈ entries, q ∉ ws e) →
        (proj st').lookup q = (proj st).lookup q := by
  intro entries
  induction entries with
  | nil => intro st st' h q _; cases h; rfl
  | cons e rest ih =>
    intro st st' h q hq
    rw [entriesFold_cons] at h
    cases hstep : step e st with
    | none => rw [hstep] at h; exact absurd h (by simp)
    | some st1 =>
      rw [hstep] at h
      have h1 := hw e st st1 hstep q (hq e (by simp))
      have h2 := ih st1 st' h q (fun e' he' => hq e' (by simp [he']))
      rw [h2, h1]

/-- Success and invariant preservation of the loop: if every step succeeds
on states satisfying `P` and preserves `P` as well as a transitive
relation `R`, so does the whole loop. -/
theorem entriesFold_some {α σ : Type} (step : α → σ → Option σ)
    (P : σ → Prop) (R : σ → σ → Prop)
    (hRtrans : ∀ a b c, R a b → R b c → R a c) (hRrefl : ∀ a, R a a) :
    ∀ (entries : List α),
      (∀ e ∈ entries, ∀ st, P st →
        ∃ st', step e st = some st' ∧ P st' ∧ R st st') →
      ∀ st : σ, P st →
        ∃ st', entriesFold step entries st = some st' ∧ P st' ∧ R st st' := by
  intro entries
  induction entries with
  | nil => intro _ st hP; exact ⟨st, rfl, hP, hRrefl st⟩
  | cons e rest ih =>
    intro hstep st hP
    obtain ⟨st1, hs, hP1, hR1⟩ := hstep e (by simp) st hP
    obtain ⟨st', hs', hP', hR'⟩ :=
      ih (fun e' he' => hstep e' (by simp [he'])) st1 hP1
    exact ⟨st', by simp [entriesFold_cons, hs, hs'], hP',
      hRtrans _ _ _ hR1 hR'⟩

/-- Predicate preservation for runs already known to succeed. -/
theorem entriesFold_pres {α σ : Type} (step : α → σ → Option σ)
    (P : σ → Prop)
    (hstep : ∀ e st st', step e st = some st' → P st → P st') :
    ∀ (entries : List α) (st st' : σ),
      entriesFold step entries st = some st' → P st → P st' := by
  intro entries
  induction entries with
  | nil => intro st st' h hP; cases h; exact hP
  | cons e rest ih =>
    intro st st' h hP
    rw [entriesFold_cons] at h
    cases hstep' : step e st with
    | none => rw [hstep'] at h; exact absurd h (by simp)
    | some st1 =>
      rw [hstep'] at h
      exact ih st1 st' h (hstep e st st1 hstep' hP)

theorem objectKeys_isSome (v : JSValue) (h : isNullV v = false) :
    ∃ ks, objectKeys v = some ks := by
  cases v <;> simp [objectKeys] <;> simp [isNullV] at h

theorem validateOperatorInput_of_lookup_some (op : String) (v : JSValue)
    (f : JSValue → Bool) (h : sequelizeOperatorValidators.lookup op = some f) :
    validateOperatorInput op v = VResult.ok ∨
      validateOperatorInput op v = VResult.err VError.zodError := by
  unfold validateOperatorInput
  rw [h]
  by_cases hf : f v = true
  · left; simp [hf]
  · right; simp [hf]

theorem validateOptionsLoop_cons_eq (nfm : List (String × JSValue))
    (key : String) (value : JSValue) (rest : List (String × JSValue)) :
    validateOptionsLoop nfm ((key, value) :: rest) =
      if (!hasOwn nfm key && !operatorTruthy key) then
        VResult.err (VError.invalidKey key)
      else if operatorTruthy key then
        match validateOperatorInput key value with
        | VResult.ok => validateOptionsLoop nfm rest
        | r => r
      else
        match objectKeys value with
        | none => VResult.raised "Cannot convert undefined or null to object"
        | some ks =>
          if ks.length > 0 then validateOptionsLoop nfm rest
          else if !hasOwn nfm key then VResult.err (VError.invalidKey key)
          else validateOptionsLoop nfm rest := rfl

theorem validateOptionsLoop_good_step (nfm : List (String × JSValue))
    (p : String × JSValue) (rest : List (String × JSValue))
    (h : goodEntry nfm p = true) :
    validateOptionsLoop nfm (p :: rest) = validateOptionsLoop nfm rest := by
  obtain ⟨key, value⟩ := p
  rw [validateOptionsLoop_cons_eq]
  unfold goodEntry at h
  cases hop : operatorTruthy key with
  | true =>
    simp only [hop, if_true, decide_eq_true_eq] at h
    simp [hop, h]
  | false =>
    simp [hop] at h
    obtain ⟨hk, hv⟩ := h
    obtain ⟨ks, hks⟩ := objectKeys_isSome value hv
    cases hlen : decide (ks.length > 0) with
    | true =>
      simp only [decide_eq_true_eq] at hlen
      simp [hop, hk, hks, hlen]
    | false =>
      simp only [decide_eq_false_iff_not] at hlen
      simp [hop, hk, hks, hlen]

theorem validateOptionsLoop_all_good (nfm : List (String × JSValue)) :
    ∀ l : List (String × JSValue), (∀ p ∈ l, goodEntry nfm p = true) →
      validateOptionsLoop nfm l = VResult.ok := by
  intro l
  induction l with
  | nil => intro _; rfl
  | cons p rest ih =>
    intro h
    rw [validateOptionsLoop_good_step nfm p rest (h p (by simp))]
    exact ih (fun q hq => h q (by simp [hq]))

theorem validateOptionsLoop_cons_cases (nfm : List (String × JSValue))
    (p : String × JSValue) (rest : List (String × JSValue)) :
    validateOptionsLoop nfm (p :: rest) = validateOptionsLoop nfm rest ∨
      validateOptionsLoop nfm (p :: rest) ≠ VResult.ok := by
  obtain ⟨key, value⟩ := p
  rw [validateOptionsLoop_cons_eq]
  cases h1 : (!hasOwn nfm key && !operatorTruthy key) with
  | true => right; simp [h1]
  | false =>
    cases h2 : operatorTruthy key with
    | true =>
      cases hvi : validateOperatorInput key value with
      | ok => left; simp [h1, h2, hvi]
      | err e => right; simp [h1, h2, hvi]
      | raised msg => right; simp [h1, h2, hvi]
    | false =>
      cases hks : objectKeys value with
      | none => right; simp [h1, h2, hks]
      | some ks =>
        cases hlen : decide (ks.length > 0) with
        | true =>
          simp only [decide_eq_true_eq] at hlen
          left; simp [h1, h2, hks, hlen]
        | false =>
          simp only [decide_eq_false_iff_not] at hlen
          cases hk : hasOwn nfm key with
          | true => left; simp [h1, h2, hks, hlen, hk]
          | false => right; simp [h1, h2, hks, hlen, hk]

theorem validateOptionsLoop_bad_key_not_ok (nfm : List (String × JSValue)) :
    ∀ (l : List (String × JSValue)) (k : String) (v : JSValue),
      (k, v) ∈ l → hasOwn nfm k = false →
      sequelizeOperatorValidators.lookup k = none →
      validateOptionsLoop nfm l ≠ VResult.ok := by
  intro l
  induction l with
  | nil => intro k v h _ _; simp at h
  | cons p rest ih =>
    intro k v hmem hk hop
    rcases List.mem_cons.mp hmem with heq | htail
    · subst heq
      rw [validateOptionsLoop_cons_eq]
      cases hpk : objectPrototypeKeys.contains k with
      | false =>
        have hpk' : k ∉ objectPrototypeKeys := by simpa using hpk
        have ht : operatorTruthy k = false := by
          simp [operatorTruthy, hop, hpk']
        simp [hk, ht]
      | true =>
        have hpk' : k ∈ objectPrototypeKeys := by simpa using hpk
        have ht : operatorTruthy k = true := by
          simp [operatorTruthy, hpk']
        have hvi : validateOperatorInput k v = VResult.raised
            "Cannot read properties of undefined (reading 'map')" := by
          simp [validateOperatorInput, hop, hpk']
        simp [hk, ht, hvi]
    · rcases validateOptionsLoop_cons_cases nfm p rest with hcont | hne
      · rw [hcont]; exact ih k v htail hk hop
      · exact hne

theorem validateOptionsLoop_not_raised (nfm : List (String × JSValue)) :
    ∀ l : List (String × JSValue),
      (∀ p ∈ l, isNullV p.2 = false ∧
        objectPrototypeKeys.contains p.1 = false) →
      ∀ msg, validateOptionsLoop nfm l ≠ VResult.raised msg := by
  intro l
  induction l with
  | nil => intro _ msg h; simp [validateOptionsLoop] at h
  | cons p rest ih =>
    intro hnn msg
    obtain ⟨key, value⟩ := p
    have hv : isNullV value = false := (hnn (key, value) (by simp)).1
    have hpk : objectPrototypeKeys.contains key = false :=
      (hnn (key, value) (by simp)).2
    have ihr := ih (fun q hq => hnn q (by simp [hq])) msg
    rw [validateOptionsLoop_cons_eq]
    cases h1 : (!hasOwn nfm key && !operatorTruthy key) with
    | true => simp [h1]
    | false =>
      cases h2 : operatorTruthy key with
      | true =>
        have hsome : (sequelizeOperatorValidators.lookup key).isSome := by
          simp only [operatorTruthy, hpk, Bool.or_false] at h2
          exact h2
        obtain ⟨f, hf⟩ := Option.isSome_iff_exists.mp hsome
        rcases validateOperatorInput_of_lookup_some key value f hf with hok | herr
        · simp [h1, h2, hok, ihr]
        · simp [h1, h2, herr]
      | false =>
        obtain ⟨ks, hks⟩ := objectKeys_isSome value hv
        cases hlen : decide (ks.length > 0) with
        | true =>
          simp only [decide_eq_true_eq] at hlen
          simp [h1, h2, hks, hlen, ihr]
        | false =>
          simp only [decide_eq_false_iff_not] at hlen
          cases hk : hasOwn nfm key with
          | true => simp [h1, h2, hks, hlen, hk, ihr]
          | false => simp [h1, h2, hks, hlen, hk]

/-! ### Claims C5-C8: operator and filter-key validation -/

/-- C5: for every operator in the fixed vocabulary, `validateOperatorInput`
returns the success tuple `[true, null]` on an operand conforming to the
spec table's shape contract for that operator, and a failure tuple carrying
the shape-mismatch error on a non-conforming operand; in particular any
`like`/`notLike`/`iLike`/`notILike` operand containing the character `%`
fails. -/
theorem c5_operator_vocabulary :
    (∀ op ∈ operatorNames, ∀ v : JSValue,
      (specOperandShape op v = true → validateOperatorInput op v = VResult.ok) ∧
      (specOperandShape op v = false →
        validateOperatorInput op v = VResult.err VError.zodError)) ∧
    (∀ op ∈ (["like", "notLike", "iLike", "notILike"] : List String),
      ∀ s : String, s.data.contains '%' = true →
        validateOperatorInput op (JSValue.str s) = VResult.err VError.zodError) := by
  constructor
  · intro op hop v
    simp only [operatorNames, sequelizeOperatorValidators, List.map_cons,
      List.map_nil, List.mem_cons, List.not_mem_nil, or_false] at hop
    rcases hop with rfl|rfl|rfl|rfl|rfl|rfl|rfl|rfl|rfl|rfl|rfl|rfl|rfl|rfl|rfl|rfl|rfl|rfl|rfl|rfl|rfl <;>
      cases v <;>
      simp [validateOperatorInput, sequelizeOperatorValidators, specOperandShape,
        List.lookup_cons, zUnion, zString, zNumber, zBoolean, zNull, zDate,
        zArrayAny, zTupleAnyAny, zStringNoPercent]
  · intro op hop s hs
    simp only [List.mem_cons, List.not_mem_nil, or_false] at hop
    rcases hop with rfl|rfl|rfl|rfl <;>
      simp [validateOperatorInput, sequelizeOperatorValidators,
        List.lookup_cons, zStringNoPercent, hs, List.elem_iff.mp hs]

/-- Witness for C5 at the operator `eq` with a conforming operand and at
`like` with an operand containing `%`. -/
theorem c5_witness :
    validateOperatorInput "eq" (JSValue.num 3) = VResult.ok ∧
    validateOperatorInput "like" (JSValue.str "abc%") =
      VResult.err VError.zodError := by
  constructor
  · exact (c5_operator_vocabulary.1 "eq" (by decide) (JSValue.num 3)).1 (by decide)
  · exact c5_operator_vocabulary.2 "like" (by decide) "abc%" (by decide)

/-- C6 (code bug): the source's loop over a known-field value's nested keys
is `Object.keys(value).forEach((k) => { if (...) return [null, ...]; })` —
the `return` exits the `forEach` callback, whose result is discarded, not
`validateOptions`.  Evaluating the code at the failing input
`clientFilter = { status: { badop: 1 } }`, `filterMap = { status: ... }`
therefore yields the success tuple `[true, null]`, although `badop` is not
a recognized operator and the claim requires a failure naming it. -/
theorem c6_forEach_return_discarded :
    validateOptions [("status", JSValue.obj [("badop", JSValue.num 1)])]
      [("status", JSValue.bool true)] = VResult.ok := by decide

/-- C7 counterexample: `toString` is neither a field of the model nor an
operator of the fixed vocabulary, so its failure is an invalid-filter-key
failure; yet `validateOptions({toString: 1}, {status: ...})` throws a
`TypeError` instead of returning the tuple `[null, "Invalid key:
toString"]` — the truthy prototype-chain read
`sequelizeOperatorValidators['toString']` finds the inherited
`Object.prototype.toString` and routes the key into the operator branch,
where `schema.parse` and then the catch block's `err.errors.map` throw. -/
theorem c7_counterexample :
    sequelizeOperatorValidators.lookup "toString" = none ∧
    hasOwn (nestedToDotObject [("status", JSValue.bool true)]) "toString" =
      false ∧
    validateOptions [("toString", JSValue.num 1)]
      [("status", JSValue.bool true)] =
      VResult.raised "Cannot read properties of undefined (reading 'map')" := by
  refine ⟨by rfl, by decide, by decide⟩

/-- C7 (amended): operand-shape failures for vocabulary operators, and the
invalid-key failures the code actually classifies, are returned as
two-element tuples, never thrown; `validateOperatorInput` with a name
outside the vocabulary always throws — the `Unsupported operator` `Error`
for ordinary names, but a `TypeError` for the `Object.prototype` member
names (`constructor`, `toString`, ...), which the truthy prototype-chain
lookup routes into the parse path.  Consequently `validateOptions` never
throws on payloads whose values are non-`null` and whose keys avoid the
`Object.prototype` member names; on such a member name it throws instead
of returning an invalid-key tuple (counterexample). -/
theorem c7_failure_delivery_amended :
    (∀ (op : String) (v : JSValue),
      sequelizeOperatorValidators.lookup op = none →
      objectPrototypeKeys.contains op = false →
      validateOperatorInput op v =
        VResult.raised ("Unsupported operator: " ++ op)) ∧
    (∀ (op : String) (v : JSValue),
      sequelizeOperatorValidators.lookup op = none →
      objectPrototypeKeys.contains op = true →
      validateOperatorInput op v =
        VResult.raised "Cannot read properties of undefined (reading 'map')") ∧
    (∀ (op : String) (v : JSValue),
      (sequelizeOperatorValidators.lookup op).isSome →
      validateOperatorInput op v = VResult.ok ∨
        validateOperatorInput op v = VResult.err VError.zodError) ∧
    (∀ (clientFilter filterMap : List (String × JSValue)),
      (∀ p ∈ clientFilter, isNullV p.2 = false ∧
        objectPrototypeKeys.contains p.1 = false) →
      ∀ msg, validateOptions clientFilter filterMap ≠ VResult.raised msg) := by
  refine ⟨?_, ?_, ?_, ?_⟩
  · intro op v h hpk
    have hpk' : op ∉ objectPrototypeKeys := by simpa using hpk
    simp [validateOperatorInput, h, hpk']
  · intro op v h hpk
    have hpk' : op ∈ objectPrototypeKeys := by simpa using hpk
    simp [validateOperatorInput, h, hpk']
  · intro op v h
    obtain ⟨f, hf⟩ := Option.isSome_iff_exists.mp h
    exact validateOperatorInput_of_lookup_some op v f hf
  · intro clientFilter filterMap h msg
    exact validateOptionsLoop_not_raised (nestedToDotObject filterMap)
      clientFilter h msg

/-- Witness for C7 at concrete inputs: an ordinary unknown operator throws
the `Unsupported operator` error, a prototype member name throws a
`TypeError`, a vocabulary operator returns a tuple, and a null-free,
prototype-free payload never reaches a throw. -/
theorem c7_witness :
    validateOperatorInput "badop" JSValue.null =
      VResult.raised "Unsupported operator: badop" ∧
    validateOperatorInput "toString" JSValue.null =
      VResult.raised "Cannot read properties of undefined (reading 'map')" ∧
    (validateOperatorInput "eq" JSValue.null = VResult.ok ∨
      validateOperatorInput "eq" JSValue.null = VResult.err VError.zodError) ∧
    validateOptions [("zzz", JSValue.num 1)] [("status", JSValue.bool true)] ≠
      VResult.raised "Cannot convert undefined or null to object" := by
  refine ⟨?_, ?_, ?_, ?_⟩
  · exact c7_failure_delivery_amended.1 "badop" JSValue.null (by rfl) (by decide)
  · exact c7_failure_delivery_amended.2.1 "toString" JSValue.null (by rfl)
      (by decide)
  · exact c7_failure_delivery_amended.2.2.1 "eq" JSValue.null (by rfl)
  · exact c7_failure_delivery_amended.2.2.2 [("zzz", JSValue.num 1)]
      [("status", JSValue.bool true)] (by decide)
      "Cannot convert undefined or null to object"

theorem validateOptionsLoop_goodPre (nfm : List (String × JSValue)) :
    ∀ (pre l : List (String × JSValue)),
      (∀ p ∈ pre, goodEntry nfm p = true) →
      validateOptionsLoop nfm (pre ++ l) = validateOptionsLoop nfm l := by
  intro pre
  induction pre with
  | nil => intro l _; rfl
  | cons p rest ih =>
    intro l h
    rw [List.cons_append,
      validateOptionsLoop_good_step nfm p (rest ++ l) (h p (by simp))]
    exact ih l (fun q hq => h q (by simp [hq]))

/-- C8 counterexample: the claim asserts that a payload whose every
top-level key is a known field (or an operator with conforming operand)
yields `[true, null]`; but for the payload `{ status: null }` over a model
knowing `status`, the source evaluates `Object.keys(null)` and throws a
`TypeError` instead of returning the success tuple. -/
theorem c8_counterexample :
    validateOptions [("status", JSValue.null)] [("status", JSValue.bool true)] =
      VResult.raised "Cannot convert undefined or null to object" := by decide

/-- C8 (amended): (1) a payload containing a key that is neither in the
dot-flattened field map nor an operator never yields the success tuple
(for an `Object.prototype` member name such as `toString` the loop throws
a `TypeError` via the truthy prototype-chain operator lookup — still not
success); (2) when such a key is moreover not an `Object.prototype` member
name and every entry before it validates without halting, the result is
exactly the failure tuple `[null, "Invalid key: <key>"]`; (3) a payload
whose every key is an operator with a conforming operand, or a known field
— not named like an `Object.prototype` member — with a non-`null` value,
yields `[true, null]` (the `null` proviso is forced by the
`Object.keys(null)` throw of the counterexample; the prototype-name
proviso by the `TypeError` the operator branch throws on such names). -/
theorem c8_invalid_key_amended :
    (∀ (cf fm : List (String × JSValue)) (k : String) (v : JSValue),
      (k, v) ∈ cf → hasOwn (nestedToDotObject fm) k = false →
      sequelizeOperatorValidators.lookup k = none →
      validateOptions cf fm ≠ VResult.ok) ∧
    (∀ (fm pre post : List (String × JSValue)) (k : String) (v : JSValue),
      (∀ p ∈ pre, goodEntry (nestedToDotObject fm) p = true) →
      hasOwn (nestedToDotObject fm) k = false →
      sequelizeOperatorValidators.lookup k = none →
      objectPrototypeKeys.contains k = false →
      validateOptions (pre ++ (k, v) :: post) fm =
        VResult.err (VError.invalidKey k)) ∧
    (∀ cf fm : List (String × JSValue),
      (∀ p ∈ cf, goodEntry (nestedToDotObject fm) p = true) →
      validateOptions cf fm = VResult.ok) := by
  refine ⟨?_, ?_, ?_⟩
  · intro cf fm k v hmem hk hop
    exact validateOptionsLoop_bad_key_not_ok (nestedToDotObject fm) cf k v
      hmem hk hop
  · intro fm pre post k v hpre hk hop hpk
    unfold validateOptions
    rw [validateOptionsLoop_goodPre (nestedToDotObject fm) pre _ hpre,
      validateOptionsLoop_cons_eq]
    have hpk' : k ∉ objectPrototypeKeys := by simpa using hpk
    have ht : operatorTruthy k = false := by
      simp [operatorTruthy, hop, hpk']
    simp [hk, ht]
  · intro cf fm h
    exact validateOptionsLoop_all_good (nestedToDotObject fm) cf h

/-- Witness for C8 at concrete inputs. -/
theorem c8_witness :
    validateOptions [("zzz", JSValue.num 1)] [("status", JSValue.bool true)] =
      VResult.err (VError.invalidKey "zzz") ∧
    validateOptions [("status", JSValue.num 5), ("eq", JSValue.num 3)]
      [("status", JSValue.bool true)] = VResult.ok ∧
    validateOptions [("zzz", JSValue.num 1)] [("status", JSValue.bool true)] ≠
      VResult.ok := by
  refine ⟨?_, ?_, ?_⟩
  · exact c8_invalid_key_amended.2.1 [("status", JSValue.bool true)] [] []
      "zzz" (JSValue.num 1) (by simp) (by decide) (by rfl) (by decide)
  · exact c8_invalid_key_amended.2.2
      [("status", JSValue.num 5), ("eq", JSValue.num 3)]
      [("status", JSValue.bool true)] (by decide)
  · exact c8_invalid_key_amended.1 [("zzz", JSValue.num 1)]
      [("status", JSValue.bool true)] "zzz" (JSValue.num 1) (by simp)
      (by decide) (by rfl)

/-! ### Claim C1: termination and cycle safety -/

theorem length_filter_le_of_imp (l : List Nat) (p q : Nat → Bool)
    (h : ∀ a, p a = true → q a = true) :
    (l.filter p).length ≤ (l.filter q).length := by
  induction l with
  | nil => simp
  | cons a rest ih =>
    cases hp : p a with
    | true => simp [List.filter_cons, hp, h a hp]; omega
    | false =>
      cases hq : q a with
      | true => simp [List.filter_cons, hp, hq]; omega
      | false => simp [List.filter_cons, hp, hq]; omega

theorem length_filter_lt_of_imp (l : List Nat) (p q : Nat → Bool)
    (h : ∀ a, p a = true → q a = true) (a : Nat) (ha : a ∈ l)
    (hpa : p a = false) (hqa : q a = true) :
    (l.filter p).length < (l.filter q).length := by
  induction l with
  | nil => simp at ha
  | cons b rest ih =>
    rcases List.mem_cons.mp ha with rfl | hmem
    · have hle := length_filter_le_of_imp rest p q h
      simp [List.filter_cons, hpa, hqa]; omega
    · cases hp : p b with
      | true =>
        have := ih hmem
        simp [List.filter_cons, hp, h b hp]; omega
      | false =>
        cases hq : q b with
        | true =>
          have hle := length_filter_le_of_imp rest p q h
          simp [List.filter_cons, hp, hq]; omega
        | false =>
          have := ih hmem
          simp [List.filter_cons, hp, hq]; omega

theorem mem_of_find? (g : Graph) (i : Nat) (n : SchemaNode)
    (h : g.find? i = some n) : (i, n) ∈ g.nodes := by
  obtain ⟨l1, l2, heq, -⟩ := List.lookup_eq_some_iff.mp h
  rw [heq]
  simp

theorem mem_ids_of_find? (g : Graph) (i : Nat) (n : SchemaNode)
    (h : g.find? i = some n) : i ∈ g.ids := by
  have := mem_of_find? g i n h
  simp only [Graph.ids, List.mem_map]
  exact ⟨(i, n), this, rfl⟩

theorem unvisitedCount_mono (g : Graph) (vis vis' : List Nat)
    (h : ∀ a, a ∈ vis → a ∈ vis') :
    unvisitedCount g vis' ≤ unvisitedCount g vis := by
  apply length_filter_le_of_imp
  intro a ha
  have ha' : a ∉ vis' := by simpa using ha
  simp
  exact fun hmem => ha' (h a hmem)

theorem unvisitedCount_cons_lt (g : Graph) (i : Nat) (vis : List Nat)
    (hi : i ∈ g.ids) (hni : i ∉ vis) :
    unvisitedCount g (i :: vis) < unvisitedCount g vis := by
  refine length_filter_lt_of_imp g.ids _ _ ?_ i hi ?_ ?_
  · intro a ha
    have ha' : a ∉ i :: vis := by simpa using ha
    simp
    exact fun hmem => ha' (by simp [hmem])
  · simp
  · simpa using hni

theorem getFilterableF_isSome (g : Graph) :
    ∀ (fuel i : Nat) (vis : List Nat), unvisitedCount g vis < fuel →
      ∃ m vis2, getFilterableF g fuel i vis = some (m, vis2) ∧
        ∀ a ∈ vis, a ∈ vis2 := by
  intro fuel
  induction fuel with
  | zero => intro i vis h; omega
  | succ fuel ih =>
    intro i vis h
    by_cases hv : i ∈ vis
    · exact ⟨[], vis, by simp [getFilterableF, hv], fun a ha => ha⟩
    · cases hfind : g.find? i with
      | none =>
        exact ⟨[], i :: vis, by simp [getFilterableF, hv, hfind],
          fun a ha => by simp [ha]⟩
      | some node =>
        cases node with
        | obj shape d =>
          have hinit : unvisitedCount g (i :: vis) < fuel := by
            have h1 := unvisitedCount_cons_lt g i vis
              (mem_ids_of_find? g i _ hfind) hv
            omega
          obtain ⟨st', hfold, hP, hR⟩ :=
            entriesFold_some (filterStep g (getFilterableF g fuel))
              (fun st => unvisitedCount g st.2 < fuel)
              (fun st st' => ∀ a ∈ st.2, a ∈ st'.2)
              (fun a b c hab hbc x hx => hbc x (hab x hx))
              (fun a x hx => hx)
              shape
              (by
                intro e _ st hP
                cases hfe : g.find? e.2 with
                | none => exact ⟨st, by simp [filterStep, hfe], hP, fun a ha => ha⟩
                | some n =>
                  by_cases hth : isThrowingLazy n = true
                  · exact ⟨st, by simp [filterStep, hfe, hth], hP, fun a ha => ha⟩
                  · cases hct : compositeTarget g e.2 n with
                    | none =>
                      refine ⟨(if n.desc.filterable then assign st.1 e.1 .tt
                        else st.1, st.2), ?_, hP, fun a ha => ha⟩
                      simp [filterStep, hfe, hth, hct]
                    | some tid =>
                      by_cases htv : tid ∈ st.2
                      · exact ⟨st, by simp [filterStep, hfe, hth, hct, htv],
                          hP, fun a ha => ha⟩
                      · obtain ⟨m, vis2, hrec, hsub⟩ := ih tid st.2 hP
                        refine ⟨(if m.isEmpty then st.1
                          else assign st.1 e.1 (.sub m), vis2), ?_, ?_, ?_⟩
                        · simp [filterStep, hfe, hth, hct, htv, hrec]
                        · show unvisitedCount g vis2 < fuel
                          have := unvisitedCount_mono g st.2 vis2 hsub
                          omega
                        · exact hsub)
              ([], i :: vis) hinit
          refine ⟨st'.1, st'.2, ?_, fun a ha => hR a (by simp [ha])⟩
          simp only [getFilterableF, hv, if_neg, hfind]
          simpa using hfold
        | leaf d =>
          exact ⟨[], i :: vis, by simp [getFilterableF, hv, hfind],
            fun a ha => by simp [ha]⟩
        | arr eid d =>
          exact ⟨[], i :: vis, by simp [getFilterableF, hv, hfind],
            fun a ha => by simp [ha]⟩
        | lazy res d =>
          exact ⟨[], i :: vis, by simp [getFilterableF, hv, hfind],
            fun a ha => by simp [ha]⟩

theorem getPathF_isSome (g : Graph) :
    ∀ (fuel i : Nat) (pk : List String) (vis : List Nat),
      unvisitedCount g vis < fuel →
      ∃ m vis2, getPathF g fuel i pk vis = some (m, vis2) ∧
        ∀ a ∈ vis, a ∈ vis2 := by
  intro fuel
  induction fuel with
  | zero => intro i pk vis h; omega
  | succ fuel ih =>
    intro i pk vis h
    by_cases hv : i ∈ vis
    · exact ⟨[], vis, by simp [getPathF, hv], fun a ha => ha⟩
    · cases hfind : g.find? i with
      | none =>
        exact ⟨[], i :: vis, by simp [getPathF, hv, hfind],
          fun a ha => by simp [ha]⟩
      | some node =>
        cases node with
        | obj shape d =>
          have hinit : unvisitedCount g (i :: vis) < fuel := by
            have h1 := unvisitedCount_cons_lt g i vis
              (mem_ids_of_find? g i _ hfind) hv
            omega
          obtain ⟨st', hfold, hP, hR⟩ :=
            entriesFold_some (pathStep g pk (getPathF g fuel))
              (fun st => unvisitedCount g st.2 < fuel)
              (fun st st' => ∀ a ∈ st.2, a ∈ st'.2)
              (fun a b c hab hbc x hx => hbc x (hab x hx))
              (fun a x hx => hx)
              shape
              (by
                intro e _ st hP
                cases hfe : g.find? e.2 with
                | none => exact ⟨st, by simp [pathStep, hfe], hP, fun a ha => ha⟩
                | some n =>
                  by_cases hth : isThrowingLazy n = true
                  · exact ⟨st, by simp [pathStep, hfe, hth], hP, fun a ha => ha⟩
                  · cases hct : pathTarget g e.2 n with
                    | none =>
                      cases hdp : n.desc.path with
                      | none =>
                        refine ⟨(assign st.1 e.1 (joinDots (pk ++ [e.1])), st.2),
                          ?_, hP, fun a ha => ha⟩
                        simp [pathStep, hfe, hth, hct, hdp]
                      | some ps =>
                        refine ⟨(assign st.1 (joinDots (pk ++ [e.1]))
                          (joinDots (pk ++ ps)), st.2), ?_, hP, fun a ha => ha⟩
                        simp [pathStep, hfe, hth, hct, hdp]
                    | some tm =>
                      by_cases htv : tm.1 ∈ st.2
                      · exact ⟨st, by simp [pathStep, hfe, hth, hct, htv],
                          hP, fun a ha => ha⟩
                      · obtain ⟨m, vis2, hrec, hsub⟩ :=
                          ih tm.1 (pk ++ [e.1]) st.2 hP
                        refine ⟨(m.foldl (copyNested tm.2 e.1) st.1, vis2),
                          ?_, ?_, ?_⟩
                        · simp [pathStep, hfe, hth, hct, htv, hrec]
                        · show unvisitedCount g vis2 < fuel
                          have := unvisitedCount_mono g st.2 vis2 hsub
                          omega
                        · exact hsub)
              ([], i :: vis) hinit
          refine ⟨st'.1, st'.2, ?_, fun a ha => hR a (by simp [ha])⟩
          simp only [getPathF, hv, if_neg, hfind]
          simpa using hfold
        | leaf d =>
          exact ⟨[], i :: vis, by simp [getPathF, hv, hfind],
            fun a ha => by simp [ha]⟩
        | arr eid d =>
          exact ⟨[], i :: vis, by simp [getPathF, hv, hfind],
            fun a ha => by simp [ha]⟩
        | lazy res d =>
          exact ⟨[], i :: vis, by simp [getPathF, hv, hfind],
            fun a ha => by simp [ha]⟩

theorem getSortableF_isSome (g : Graph) (rank : Nat → Nat)
    (hr : ObjRanked g rank) :
    ∀ fuel i, rank i < fuel → ∃ m, getSortableF g fuel i = some m := by
  intro fuel
  induction fuel with
  | zero => intro i h; omega
  | succ fuel ih =>
    intro i h
    cases hfind : g.find? i with
    | none => exact ⟨[], by simp [getSortableF, hfind]⟩
    | some node =>
      cases node with
      | obj shape d =>
        obtain ⟨st', hfold, -, -⟩ :=
          entriesFold_some (sortStep g (getSortableF g fuel))
            (fun _ => True) (fun _ _ => True)
            (fun _ _ _ _ _ => trivial) (fun _ => trivial)
            shape
            (by
              intro e he st _
              cases hfe : g.find? e.2 with
              | none => exact ⟨st, by simp [sortStep, hfe], trivial, trivial⟩
              | some n =>
                cases hobj : isObjNode n with
                | false =>
                  exact ⟨(if n.desc.sortable then assign st e.1 .tt else st),
                    by simp [sortStep, hfe, hobj], trivial, trivial⟩
                | true =>
                  have hrank : rank e.2 < rank i :=
                    hr (i, .obj shape d) (mem_of_find? g i _ hfind) e he
                      (by simp [objAt, hfe, hobj])
                  obtain ⟨m, hm⟩ := ih e.2 (by omega)
                  exact ⟨(if m.isEmpty then st else assign st e.1 (.sub m)),
                    by simp [sortStep, hfe, hobj, hm], trivial, trivial⟩)
            [] trivial
        exact ⟨st', by simp [getSortableF, hfind]; exact hfold⟩
      | leaf d => exact ⟨[], by simp [getSortableF, hfind]⟩
      | arr eid d => exact ⟨[], by simp [getSortableF, hfind]⟩
      | lazy res d => exact ⟨[], by simp [getSortableF, hfind]⟩

theorem getQueryableF_isSome (g : Graph) (rank : Nat → Nat)
    (hr : ObjRanked g rank) :
    ∀ fuel i, rank i < fuel → ∃ m, getQueryableF g fuel i = some m := by
  intro fuel
  induction fuel with
  | zero => intro i h; omega
  | succ fuel ih =>
    intro i h
    cases hfind : g.find? i with
    | none => exact ⟨[], by simp [getQueryableF, hfind]⟩
    | some node =>
      cases node with
      | obj shape d =>
        obtain ⟨st', hfold, -, -⟩ :=
          entriesFold_some (qStep g (getQueryableF g fuel))
            (fun _ => True) (fun _ _ => True)
            (fun _ _ _ _ _ => trivial) (fun _ => trivial)
            shape
            (by
              intro e he st _
              cases hfe : g.find? e.2 with
              | none => exact ⟨st, by simp [qStep, hfe], trivial, trivial⟩
              | some n =>
                cases hobj : isObjNode n with
                | false =>
                  refine ⟨(if n.desc.queryable then
                      match n.desc.path with
                      | some ps => ps.foldl (fun a p => assign a p .tt) st
                      | none => assign st e.1 .tt
                    else st), ?_, trivial, trivial⟩
                  simp [qStep, hfe, hobj]
                | true =>
                  have hrank : rank e.2 < rank i :=
                    hr (i, .obj shape d) (mem_of_find? g i _ hfind) e he
                      (by simp [objAt, hfe, hobj])
                  obtain ⟨m, hm⟩ := ih e.2 (by omega)
                  exact ⟨(if m.isEmpty then st else assign st e.1 (.sub m)),
                    by simp [qStep, hfe, hobj, hm], trivial, trivial⟩)
            [] trivial
        exact ⟨st', by simp [getQueryableF, hfind]; exact hfold⟩
      | leaf d => exact ⟨[], by simp [getQueryableF, hfind]⟩
      | arr eid d => exact ⟨[], by simp [getQueryableF, hfind]⟩
      | lazy res d => exact ⟨[], by simp [getQueryableF, hfind]⟩

/-- C1: on any schema graph — in particular any self-referential one built
with deferred/lazy nodes — each of the four traversals terminates:
`getFilterable` and `getPath` whenever the fuel exceeds the number of
not-yet-visited nodes (their visited set guarantees this bound on every
graph, cyclic or not), and `getSortable`/`getQueryable` whenever the
plain-object child relation is acyclic (which holds exactly when every
cycle passes through a lazy node, the only way a zod schema can be
self-referential), as witnessed by a rank function.  Moreover a node
already in the visited set is never re-descended: the call returns the
empty result and the unchanged visited set at once. -/
theorem c1_traversals_terminate :
    (∀ (g : Graph) (fuel i : Nat) (vis : List Nat) (pk : List String),
      unvisitedCount g vis < fuel →
      (∃ r, getFilterableF g fuel i vis = some r) ∧
      (∃ r, getPathF g fuel i pk vis = some r)) ∧
    (∀ (g : Graph) (rank : Nat → Nat) (fuel i : Nat),
      ObjRanked g rank → rank i < fuel →
      (∃ m, getSortableF g fuel i = some m) ∧
      (∃ m, getQueryableF g fuel i = some m)) ∧
    (∀ (g : Graph) (fuel i : Nat) (vis : List Nat) (pk : List String),
      i ∈ vis →
      getFilterableF g (fuel + 1) i vis = some ([], vis) ∧
      getPathF g (fuel + 1) i pk vis = some ([], vis)) := by
  refine ⟨?_, ?_, ?_⟩
  · intro g fuel i vis pk h
    constructor
    · obtain ⟨m, vis2, hm, -⟩ := getFilterableF_isSome g fuel i vis h
      exact ⟨(m, vis2), hm⟩
    · obtain ⟨m, vis2, hm, -⟩ := getPathF_isSome g fuel i pk vis h
      exact ⟨(m, vis2), hm⟩
  · intro g rank fuel i hr h
    exact ⟨getSortableF_isSome g rank hr fuel i h,
      getQueryableF_isSome g rank hr fuel i h⟩
  · intro g fuel i vis pk hv
    exact ⟨by simp [getFilterableF, hv], by simp [getPathF, hv]⟩

/-- Witness for C1 on the cyclic graph `gCyc`. -/
theorem c1_witness :
    ((∃ r, getFilterableF gCyc 7 0 [] = some r) ∧
      (∃ r, getPathF gCyc 7 0 [] [] = some r)) ∧
    ((∃ m, getSortableF gCyc 7 0 = some m) ∧
      (∃ m, getQueryableF gCyc 7 0 = some m)) ∧
    getFilterableF gCyc 7 0 [0] = some ([], [0]) := by
  refine ⟨?_, ?_, ?_⟩
  · exact c1_traversals_terminate.1 gCyc 7 0 [] [] (by decide)
  · exact c1_traversals_terminate.2.1 gCyc (fun _ => 0) 7 0
      (by unfold ObjRanked; decide) (by decide)
  · exact (c1_traversals_terminate.2.2 gCyc 6 0 [0] [] (by decide)).1

/-! ### Claim C10: a throwing deferred resolver is silently skipped -/

theorem entriesFold_append {α σ : Type} (step : α → σ → Option σ)
    (l1 l2 : List α) (st : σ) :
    entriesFold step (l1 ++ l2) st =
      match entriesFold step l1 st with
      | none => none
      | some st' => entriesFold step l2 st' := by
  induction l1 generalizing st with
  | nil => simp [entriesFold_nil]
  | cons e rest ih =>
    rw [List.cons_append, entriesFold_cons, entriesFold_cons]
    cases hstep : step e st with
    | none => rfl
    | some st1 => exact ih st1

theorem entriesFold_skip_mid {α σ : Type} (step : α → σ → Option σ)
    (pre post : List α) (e : α)
    (h : ∀ st' : σ, step e st' = some st') (st : σ) :
    entriesFold step (pre ++ e :: post) st =
      entriesFold step (pre ++ post) st := by
  rw [entriesFold_append, entriesFold_append]
  cases hpre : entriesFold step pre st with
  | none => rfl
  | some st1 =>
    simp only [entriesFold_cons, h st1]

theorem filterStep_throwing (g : Graph)
    (rec : Nat → List Nat → Option (CapMap × List Nat)) (e : String × Nat)
    (d : Description) (h : g.find? e.2 = some (.lazy none d))
    (st : CapMap × List Nat) : filterStep g rec e st = some st := by
  simp [filterStep, h, isThrowingLazy]

theorem pathStep_throwing (g : Graph) (pk : List String)
    (rec : Nat → List String → List Nat → Option (PathMap × List Nat))
    (e : String × Nat) (d : Description)
    (h : g.find? e.2 = some (.lazy none d)) (st : PathMap × List Nat) :
    pathStep g pk rec e st = some st := by
  simp [pathStep, h, isThrowingLazy]

/-- C10: when a deferred child's resolver throws (`lazy none`), both
`getFilterable` and `getPath` swallow the error: the whole traversal of the
object equals the traversal of the same shape with the throwing entry
removed — it contributes nothing, the remaining siblings are processed
unchanged, and the call returns normally. -/
theorem c10_throwing_resolver_skipped :
    (∀ (g : Graph) (fuel i cid : Nat) (vis : List Nat)
       (pre post : List (String × Nat)) (k : String) (d d2 : Description),
      g.find? i = some (.obj (pre ++ (k, cid) :: post) d) →
      g.find? cid = some (.lazy none d2) → i ∉ vis →
      getFilterableF g (fuel + 1) i vis =
        entriesFold (filterStep g (getFilterableF g fuel)) (pre ++ post)
          ([], i :: vis)) ∧
    (∀ (g : Graph) (fuel i cid : Nat) (pk : List String) (vis : List Nat)
       (pre post : List (String × Nat)) (k : String) (d d2 : Description),
      g.find? i = some (.obj (pre ++ (k, cid) :: post) d) →
      g.find? cid = some (.lazy none d2) → i ∉ vis →
      getPathF g (fuel + 1) i pk vis =
        entriesFold (pathStep g pk (getPathF g fuel)) (pre ++ post)
          ([], i :: vis)) := by
  constructor
  · intro g fuel i cid vis pre post k d d2 hfind hlazy hv
    have : getFilterableF g (fuel + 1) i vis =
        entriesFold (filterStep g (getFilterableF g fuel))
          (pre ++ (k, cid) :: post) ([], i :: vis) := by
      simp [getFilterableF, hv, hfind]
    rw [this]
    exact entriesFold_skip_mid _ pre post (k, cid)
      (filterStep_throwing g _ (k, cid) d2 hlazy) _
  · intro g fuel i cid pk vis pre post k d d2 hfind hlazy hv
    have : getPathF g (fuel + 1) i pk vis =
        entriesFold (pathStep g pk (getPathF g fuel))
          (pre ++ (k, cid) :: post) ([], i :: vis) := by
      simp [getPathF, hv, hfind]
    rw [this]
    exact entriesFold_skip_mid _ pre post (k, cid)
      (pathStep_throwing g pk _ (k, cid) d2 hlazy) _

/-- Witness for C10 on `gThrow`: the traversal equals that of the shape
without the throwing child. -/
theorem c10_witness :
    getFilterableF gThrow 5 0 [] =
      entriesFold (filterStep gThrow (getFilterableF gThrow 4))
        [("a", 1), ("b", 3)] ([], [0]) ∧
    getPathF gThrow 5 0 [] [] =
      entriesFold (pathStep gThrow [] (getPathF gThrow 4))
        [("a", 1), ("b", 3)] ([], [0]) := by
  constructor
  · exact c10_throwing_resolver_skipped.1 gThrow 4 0 2 [] [("a", 1)]
      [("b", 3)] "bad" {} {} (by rfl) (by rfl) (by simp)
  · exact c10_throwing_resolver_skipped.2 gThrow 4 0 2 [] [] [("a", 1)]
      [("b", 3)] "bad" {} {} (by rfl) (by rfl) (by simp)

/-! ### Lookup characterization of the traversal loops (claims C2-C4) -/

theorem alias_fold_lookup (ps : List String) (acc : CapMap) (q : String) :
    (ps.foldl (fun a p => assign a p .tt) acc).lookup q =
      if q ∈ ps then some .tt else acc.lookup q := by
  induction ps generalizing acc with
  | nil => simp
  | cons p rest ih =>
    rw [List.foldl_cons, ih]
    by_cases hq : q ∈ rest
    · simp [hq]
    · by_cases hp : q = p
      · simp [hq, hp, lookup_assign_self]
      · simp [hq, hp, lookup_assign_ne _ _ _ _ hp]

theorem filterStep_eq_dangling (g : Graph) (rec : Nat → List Nat → Option (CapMap × List Nat))
    (e : String × Nat) (st : CapMap × List Nat) (hfe : g.find? e.2 = none) :
    filterStep g rec e st = some st := by
  simp [filterStep, hfe]

theorem filterStep_eq_composite (g : Graph)
    (rec : Nat → List Nat → Option (CapMap × List Nat)) (e : String × Nat)
    (st : CapMap × List Nat) (n : SchemaNode) (tid : Nat)
    (hfe : g.find? e.2 = some n) (hth : isThrowingLazy n = false)
    (hct : compositeTarget g e.2 n = some tid) :
    filterStep g rec e st =
      if tid ∈ st.2 then some st
      else
        match rec tid st.2 with
        | none => none
        | some nv =>
          some (if nv.1.isEmpty then st.1 else assign st.1 e.1 (.sub nv.1),
            nv.2) := by
  simp [filterStep, hfe, hth, hct]

theorem filterStep_eq_leaf (g : Graph)
    (rec : Nat → List Nat → Option (CapMap × List Nat)) (e : String × Nat)
    (st : CapMap × List Nat) (n : SchemaNode)
    (hfe : g.find? e.2 = some n) (hth : isThrowingLazy n = false)
    (hct : compositeTarget g e.2 n = none) :
    filterStep g rec e st =
      some (if n.desc.filterable then assign st.1 e.1 .tt else st.1, st.2) := by
  simp [filterStep, hfe, hth, hct]

theorem filterStep_frame (g : Graph)
    (rec : Nat → List Nat → Option (CapMap × List Nat)) (e : String × Nat)
    (st st' : CapMap × List Nat) (h : filterStep g rec e st = some st')
    (q : String) (hq : q ∉ [e.1]) : st'.1.lookup q = st.1.lookup q := by
  have hq1 : q ≠ e.1 := by simpa using hq
  cases hfe : g.find? e.2 with
  | none =>
    rw [filterStep_eq_dangling g rec e st hfe] at h
    cases h; rfl
  | some n =>
    cases hth : isThrowingLazy n with
    | true =>
      rw [filterStep_throwing g rec e ?d ?hl st] at h
      case d => exact n.desc
      case hl =>
        cases n with
        | lazy r d => cases r with
          | none => exact hfe
          | some rid => simp [isThrowingLazy] at hth
        | leaf d => simp [isThrowingLazy] at hth
        | obj sh d => simp [isThrowingLazy] at hth
        | arr eid d => simp [isThrowingLazy] at hth
      cases h; rfl
    | false =>
      cases hct : compositeTarget g e.2 n with
      | none =>
        rw [filterStep_eq_leaf g rec e st n hfe hth hct] at h
        cases h
        by_cases hf : n.desc.filterable = true
        · simp [hf, lookup_assign_ne _ _ _ _ hq1]
        · simp [hf]
      | some tid =>
        rw [filterStep_eq_composite g rec e st n tid hfe hth hct] at h
        by_cases htv : tid ∈ st.2
        · rw [if_pos htv] at h; cases h; rfl
        · rw [if_neg htv] at h
          cases hrec : rec tid st.2 with
          | none => rw [hrec] at h; exact absurd h (by simp)
          | some nv =>
            rw [hrec] at h
            simp only [Option.some.injEq] at h
            subst h
            by_cases hemp : nv.1.isEmpty
            · simp [hemp]
            · simp [hemp, lookup_assign_ne _ _ _ _ hq1]

theorem filterStep_eq_throwing (g : Graph)
    (rec : Nat → List Nat → Option (CapMap × List Nat)) (e : String × Nat)
    (st : CapMap × List Nat) (n : SchemaNode)
    (hfe : g.find? e.2 = some n) (hth : isThrowingLazy n = true) :
    filterStep g rec e st = some st := by
  simp [filterStep, hfe, hth]

theorem sortStep_eq_dangling (g : Graph) (rec : Nat → Option CapMap)
    (e : String × Nat) (acc : CapMap) (hfe : g.find? e.2 = none) :
    sortStep g rec e acc = some acc := by
  simp [sortStep, hfe]

theorem sortStep_eq_obj (g : Graph) (rec : Nat → Option CapMap)
    (e : String × Nat) (acc : CapMap) (n : SchemaNode)
    (hfe : g.find? e.2 = some n) (hobj : isObjNode n = true) :
    sortStep g rec e acc =
      match rec e.2 with
      | none => none
      | some m => some (if m.isEmpty then acc else assign acc e.1 (.sub m)) := by
  simp [sortStep, hfe, hobj]

theorem sortStep_eq_nonobj (g : Graph) (rec : Nat → Option CapMap)
    (e : String × Nat) (acc : CapMap) (n : SchemaNode)
    (hfe : g.find? e.2 = some n) (hobj : isObjNode n = false) :
    sortStep g rec e acc =
      some (if n.desc.sortable then assign acc e.1 .tt else acc) := by
  simp [sortStep, hfe, hobj]

theorem sortStep_frame (g : Graph) (rec : Nat → Option CapMap)
    (e : String × Nat) (acc acc' : CapMap)
    (h : sortStep g rec e acc = some acc')
    (q : String) (hq : q ∉ [e.1]) : acc'.lookup q = acc.lookup q := by
  have hq1 : q ≠ e.1 := by simpa using hq
  cases hfe : g.find? e.2 with
  | none => rw [sortStep_eq_dangling g rec e acc hfe] at h; cases h; rfl
  | some n =>
    cases hobj : isObjNode n with
    | true =>
      rw [sortStep_eq_obj g rec e acc n hfe hobj] at h
      cases hrec : rec e.2 with
      | none => rw [hrec] at h; exact absurd h (by simp)
      | some m =>
        rw [hrec] at h
        simp only [Option.some.injEq] at h
        subst h
        by_cases hemp : m.isEmpty
        · simp [hemp]
        · simp [hemp, lookup_assign_ne _ _ _ _ hq1]
    | false =>
      rw [sortStep_eq_nonobj g rec e acc n hfe hobj] at h
      cases h
      by_cases hs : n.desc.sortable = true
      · simp [hs, lookup_assign_ne _ _ _ _ hq1]
      · simp [hs]

theorem qStep_eq_dangling (g : Graph) (rec : Nat → Option CapMap)
    (e : String × Nat) (acc : CapMap) (hfe : g.find? e.2 = none) :
    qStep g rec e acc = some acc := by
  simp [qStep, hfe]

theorem qStep_eq_obj (g : Graph) (rec : Nat → Option CapMap)
    (e : String × Nat) (acc : CapMap) (n : SchemaNode)
    (hfe : g.find? e.2 = some n) (hobj : isObjNode n = true) :
    qStep g rec e acc =
      match rec e.2 with
      | none => none
      | some m => some (if m.isEmpty then acc else assign acc e.1 (.sub m)) := by
  simp [qStep, hfe, hobj]

theorem qStep_eq_nonobj (g : Graph) (rec : Nat → Option CapMap)
    (e : String × Nat) (acc : CapMap) (n : SchemaNode)
    (hfe : g.find? e.2 = some n) (hobj : isObjNode n = false) :
    qStep g rec e acc =
      some (if n.desc.queryable then
          match n.desc.path with
          | some ps => ps.foldl (fun a p => assign a p .tt) acc
          | none => assign acc e.1 .tt
        else acc) := by
  simp [qStep, hfe, hobj]

theorem qStep_frame (g : Graph) (rec : Nat → Option CapMap)
    (e : String × Nat) (acc acc' : CapMap) (h : qStep g rec e acc = some acc')
    (q : String) (hq : q ∉ qWrites g e) : acc'.lookup q = acc.lookup q := by
  unfold qWrites at hq
  cases hfe : g.find? e.2 with
  | none => rw [qStep_eq_dangling g rec e acc hfe] at h; cases h; rfl
  | some n =>
    simp only [hfe] at hq
    cases hobj : isObjNode n with
    | true =>
      simp only [hobj, if_true] at hq
      have hq1 : q ≠ e.1 := by simpa using hq
      rw [qStep_eq_obj g rec e acc n hfe hobj] at h
      cases hrec : rec e.2 with
      | none => rw [hrec] at h; exact absurd h (by simp)
      | some m =>
        rw [hrec] at h
        simp only [Option.some.injEq] at h
        subst h
        by_cases hemp : m.isEmpty
        · simp [hemp]
        · simp [hemp, lookup_assign_ne _ _ _ _ hq1]
    | false =>
      simp only [hobj, Bool.false_eq_true, if_false] at hq
      rw [qStep_eq_nonobj g rec e acc n hfe hobj] at h
      cases h
      cases hz : n.desc.queryable with
      | false => simp [hz]
      | true =>
        simp only [hz, if_true] at hq
        cases hp : n.desc.path with
        | none =>
          simp only [hp] at hq
          have hq1 : q ≠ e.1 := by simpa using hq
          simp [hz, hp, lookup_assign_ne _ _ _ _ hq1]
        | some ps =>
          simp only [hp] at hq
          simp [hz, hp, alias_fold_lookup, hq]

theorem getSortableF_child (g : Graph) (fuel i : Nat)
    (pre post : List (String × Nat)) (k : String) (cid : Nat)
    (d : Description) (m : CapMap) (n : SchemaNode)
    (hcall : getSortableF g (fuel + 1) i = some m)
    (hfind : g.find? i = some (.obj (pre ++ (k, cid) :: post) d))
    (hn : g.find? cid = some n) (hobj : isObjNode n = true)
    (hkpre : ∀ e ∈ pre, k ≠ e.1) (hkpost : ∀ e ∈ post, k ≠ e.1) :
    ∃ t, getSortableF g fuel cid = some t ∧
      m.lookup k = if t.isEmpty then none else some (.sub t) := by
  have hfold : entriesFold (sortStep g (getSortableF g fuel))
      (pre ++ (k, cid) :: post) [] = some m := by
    simpa [getSortableF, hfind] using hcall
  obtain ⟨st1, st2, h1, h2, h3⟩ :=
    entriesFold_split _ pre post (k, cid) [] m hfold
  have hpre : st1.lookup k = none := by
    have := entriesFold_frame (sortStep g (getSortableF g fuel))
      (fun x => x) (fun e => [e.1])
      (fun e st st' h q hq => sortStep_frame g _ e st st' h q hq)
      pre [] st1 h1 k (fun e he => by simpa using hkpre e he)
    simpa using this
  have hpost : m.lookup k = st2.lookup k := by
    have := entriesFold_frame (sortStep g (getSortableF g fuel))
      (fun x => x) (fun e => [e.1])
      (fun e st st' h q hq => sortStep_frame g _ e st st' h q hq)
      post st2 m h3 k (fun e he => by simpa using hkpost e he)
    simpa using this
  rw [sortStep_eq_obj g _ (k, cid) st1 n hn hobj] at h2
  cases hrec : getSortableF g fuel cid with
  | none => rw [hrec] at h2; exact absurd h2 (by simp)
  | some t =>
    rw [hrec] at h2
    simp only [Option.some.injEq] at h2
    subst h2
    refine ⟨t, rfl, ?_⟩
    by_cases hemp : t.isEmpty = true
    · rw [if_pos hemp] at hpost
      rw [if_pos hemp, hpost, hpre]
    · rw [if_neg hemp] at hpost
      rw [if_neg hemp, hpost, lookup_assign_self]

theorem getSortableF_leafEntry (g : Graph) (fuel i : Nat)
    (pre post : List (String × Nat)) (k : String) (cid : Nat)
    (d : Description) (m : CapMap) (n : SchemaNode)
    (hcall : getSortableF g (fuel + 1) i = some m)
    (hfind : g.find? i = some (.obj (pre ++ (k, cid) :: post) d))
    (hn : g.find? cid = some n) (hobj : isObjNode n = false)
    (hkpre : ∀ e ∈ pre, k ≠ e.1) (hkpost : ∀ e ∈ post, k ≠ e.1) :
    m.lookup k = if n.desc.sortable then some .tt else none := by
  have hfold : entriesFold (sortStep g (getSortableF g fuel))
      (pre ++ (k, cid) :: post) [] = some m := by
    simpa [getSortableF, hfind] using hcall
  obtain ⟨st1, st2, h1, h2, h3⟩ :=
    entriesFold_split _ pre post (k, cid) [] m hfold
  have hpre : st1.lookup k = none := by
    have := entriesFold_frame (sortStep g (getSortableF g fuel))
      (fun x => x) (fun e => [e.1])
      (fun e st st' h q hq => sortStep_frame g _ e st st' h q hq)
      pre [] st1 h1 k (fun e he => by simpa using hkpre e he)
    simpa using this
  have hpost : m.lookup k = st2.lookup k := by
    have := entriesFold_frame (sortStep g (getSortableF g fuel))
      (fun x => x) (fun e => [e.1])
      (fun e st st' h q hq => sortStep_frame g _ e st st' h q hq)
      post st2 m h3 k (fun e he => by simpa using hkpost e he)
    simpa using this
  rw [sortStep_eq_nonobj g _ (k, cid) st1 n hn hobj] at h2
  cases h2
  by_cases hs : n.desc.sortable = true
  · rw [if_pos hs] at hpost
    rw [if_pos hs, hpost, lookup_assign_self]
  · rw [if_neg hs] at hpost
    rw [if_neg hs, hpost, hpre]

theorem getQueryableF_child (g : Graph) (fuel i : Nat)
    (pre post : List (String × Nat)) (k : String) (cid : Nat)
    (d : Description) (m : CapMap) (n : SchemaNode)
    (hcall : getQueryableF g (fuel + 1) i = some m)
    (hfind : g.find? i = some (.obj (pre ++ (k, cid) :: post) d))
    (hn : g.find? cid = some n) (hobj : isObjNode n = true)
    (hkpre : ∀ e ∈ pre, k ∉ qWrites g e)
    (hkpost : ∀ e ∈ post, k ∉ qWrites g e) :
    ∃ t, getQueryableF g fuel cid = some t ∧
      m.lookup k = if t.isEmpty then none else some (.sub t) := by
  have hfold : entriesFold (qStep g (getQueryableF g fuel))
      (pre ++ (k, cid) :: post) [] = some m := by
    simpa [getQueryableF, hfind] using hcall
  obtain ⟨st1, st2, h1, h2, h3⟩ :=
    entriesFold_split _ pre post (k, cid) [] m hfold
  have hpre : st1.lookup k = none := by
    have := entriesFold_frame (qStep g (getQueryableF g fuel))
      (fun x => x) (qWrites g)
      (fun e st st' h q hq => qStep_frame g _ e st st' h q hq)
      pre [] st1 h1 k hkpre
    simpa using this
  have hpost : m.lookup k = st2.lookup k := by
    have := entriesFold_frame (qStep g (getQueryableF g fuel))
      (fun x => x) (qWrites g)
      (fun e st st' h q hq => qStep_frame g _ e st st' h q hq)
      post st2 m h3 k hkpost
    simpa using this
  rw [qStep_eq_obj g _ (k, cid) st1 n hn hobj] at h2
  cases hrec : getQueryableF g fuel cid with
  | none => rw [hrec] at h2; exact absurd h2 (by simp)
  | some t =>
    rw [hrec] at h2
    simp only [Option.some.injEq] at h2
    subst h2
    refine ⟨t, rfl, ?_⟩
    by_cases hemp : t.isEmpty = true
    · rw [if_pos hemp] at hpost
      rw [if_pos hemp, hpost, hpre]
    · rw [if_neg hemp] at hpost
      rw [if_neg hemp, hpost, lookup_assign_self]

theorem getQueryableF_leafEntry (g : Graph) (fuel i : Nat)
    (pre post : List (String × Nat)) (k : String) (cid : Nat)
    (d : Description) (m : CapMap) (n : SchemaNode)
    (hcall : getQueryableF g (fuel + 1) i = some m)
    (hfind : g.find? i = some (.obj (pre ++ (k, cid) :: post) d))
    (hn : g.find? cid = some n) (hobj : isObjNode n = false)
    (hq : n.desc.queryable = true) (hp : n.desc.path = none)
    (hkpre : ∀ e ∈ pre, k ∉ qWrites g e)
    (hkpost : ∀ e ∈ post, k ∉ qWrites g e) :
    m.lookup k = some .tt := by
  have hfold : entriesFold (qStep g (getQueryableF g fuel))
      (pre ++ (k, cid) :: post) [] = some m := by
    simpa [getQueryableF, hfind] using hcall
  obtain ⟨st1, st2, h1, h2, h3⟩ :=
    entriesFold_split _ pre post (k, cid) [] m hfold
  have hpost : m.lookup k = st2.lookup k := by
    have := entriesFold_frame (qStep g (getQueryableF g fuel))
      (fun x => x) (qWrites g)
      (fun e st st' h q hq => qStep_frame g _ e st st' h q hq)
      post st2 m h3 k hkpost
    simpa using this
  rw [qStep_eq_nonobj g _ (k, cid) st1 n hn hobj] at h2
  rw [if_pos hq] at h2
  rw [hp] at h2
  cases h2
  rw [hpost, lookup_assign_self]

theorem getQueryableF_aliasEntry (g : Graph) (fuel i : Nat)
    (pre post : List (String × Nat)) (k : String) (cid : Nat)
    (d : Description) (m : CapMap) (n : SchemaNode) (ps : List String)
    (hcall : getQueryableF g (fuel + 1) i = some m)
    (hfind : g.find? i = some (.obj (pre ++ (k, cid) :: post) d))
    (hn : g.find? cid = some n) (hobj : isObjNode n = false)
    (hq : n.desc.queryable = true) (hp : n.desc.path = some ps) :
    (∀ a ∈ ps, (∀ e ∈ post, a ∉ qWrites g e) → m.lookup a = some .tt) ∧
    (k ∉ ps → (∀ e ∈ pre, k ∉ qWrites g e) → (∀ e ∈ post, k ∉ qWrites g e) →
      m.lookup k = none) := by
  have hfold : entriesFold (qStep g (getQueryableF g fuel))
      (pre ++ (k, cid) :: post) [] = some m := by
    simpa [getQueryableF, hfind] using hcall
  obtain ⟨st1, st2, h1, h2, h3⟩ :=
    entriesFold_split _ pre post (k, cid) [] m hfold
  rw [qStep_eq_nonobj g _ (k, cid) st1 n hn hobj] at h2
  rw [if_pos hq] at h2
  rw [hp] at h2
  cases h2
  constructor
  · intro a ha hapost
    have hpost : m.lookup a =
        (ps.foldl (fun a p => assign a p .tt) st1).lookup a := by
      have := entriesFold_frame (qStep g (getQueryableF g fuel))
        (fun x => x) (qWrites g)
        (fun e st st' h q hq => qStep_frame g _ e st st' h q hq)
        post _ m h3 a hapost
      simpa using this
    rw [hpost, alias_fold_lookup]
    simp [ha]
  · intro hknotin hkpre hkpost
    have hpre : st1.lookup k = none := by
      have := entriesFold_frame (qStep g (getQueryableF g fuel))
        (fun x => x) (qWrites g)
        (fun e st st' h q hq => qStep_frame g _ e st st' h q hq)
        pre [] st1 h1 k hkpre
      simpa using this
    have hpost : m.lookup k =
        (ps.foldl (fun a p => assign a p .tt) st1).lookup k := by
      have := entriesFold_frame (qStep g (getQueryableF g fuel))
        (fun x => x) (qWrites g)
        (fun e st st' h q hq => qStep_frame g _ e st st' h q hq)
        post _ m h3 k hkpost
      simpa using this
    rw [hpost, alias_fold_lookup]
    simp [hknotin, hpre]

theorem getQueryableF_silentEntry (g : Graph) (fuel i : Nat)
    (pre post : List (String × Nat)) (k : String) (cid : Nat)
    (d : Description) (m : CapMap) (n : SchemaNode)
    (hcall : getQueryableF g (fuel + 1) i = some m)
    (hfind : g.find? i = some (.obj (pre ++ (k, cid) :: post) d))
    (hn : g.find? cid = some n) (hobj : isObjNode n = false)
    (hq : n.desc.queryable = false)
    (hkpre : ∀ e ∈ pre, k ∉ qWrites g e)
    (hkpost : ∀ e ∈ post, k ∉ qWrites g e) :
    m.lookup k = none := by
  have hfold : entriesFold (qStep g (getQueryableF g fuel))
      (pre ++ (k, cid) :: post) [] = some m := by
    simpa [getQueryableF, hfind] using hcall
  obtain ⟨st1, st2, h1, h2, h3⟩ :=
    entriesFold_split _ pre post (k, cid) [] m hfold
  have hpre : st1.lookup k = none := by
    have := entriesFold_frame (qStep g (getQueryableF g fuel))
      (fun x => x) (qWrites g)
      (fun e st st' h q hq => qStep_frame g _ e st st' h q hq)
      pre [] st1 h1 k hkpre
    simpa using this
  have hpost : m.lookup k = st2.lookup k := by
    have := entriesFold_frame (qStep g (getQueryableF g fuel))
      (fun x => x) (qWrites g)
      (fun e st st' h q hq => qStep_frame g _ e st st' h q hq)
      post st2 m h3 k hkpost
    simpa using this
  rw [qStep_eq_nonobj g _ (k, cid) st1 n hn hobj] at h2
  rw [if_neg (by simp [hq])] at h2
  cases h2
  rw [hpost, hpre]

theorem getFilterableF_child (g : Graph) (fuel i : Nat) (vis : List Nat)
    (pre post : List (String × Nat)) (k : String) (cid : Nat)
    (d : Description) (m : CapMap) (vis2 : List Nat) (n : SchemaNode)
    (tid : Nat)
    (hcall : getFilterableF g (fuel + 1) i vis = some (m, vis2))
    (hfind : g.find? i = some (.obj (pre ++ (k, cid) :: post) d))
    (hv : i ∉ vis)
    (hn : g.find? cid = some n) (hth : isThrowingLazy n = false)
    (hct : compositeTarget g cid n = some tid) (hfuel : 0 < fuel)
    (hkpre : ∀ e ∈ pre, k ≠ e.1) (hkpost : ∀ e ∈ post, k ≠ e.1) :
    ∃ st1 t vis3,
      entriesFold (filterStep g (getFilterableF g fuel)) pre
        ([], i :: vis) = some st1 ∧
      getFilterableF g fuel tid st1.2 = some (t, vis3) ∧
      m.lookup k = if t.isEmpty then none else some (.sub t) := by
  have hfold : entriesFold (filterStep g (getFilterableF g fuel))
      (pre ++ (k, cid) :: post) ([], i :: vis) = some (m, vis2) := by
    simpa [getFilterableF, hv, hfind] using hcall
  obtain ⟨st1, st2, h1, h2, h3⟩ :=
    entriesFold_split _ pre post (k, cid) _ _ hfold
  have hpre : st1.1.lookup k = none := by
    have := entriesFold_frame (filterStep g (getFilterableF g fuel))
      Prod.fst (fun e => [e.1])
      (fun e st st' h q hq => filterStep_frame g _ e st st' h q hq)
      pre _ st1 h1 k (fun e he => by simpa using hkpre e he)
    simpa using this
  have hpost : m.lookup k = st2.1.lookup k := by
    have := entriesFold_frame (filterStep g (getFilterableF g fuel))
      Prod.fst (fun e => [e.1])
      (fun e st st' h q hq => filterStep_frame g _ e st st' h q hq)
      post st2 (m, vis2) h3 k (fun e he => by simpa using hkpost e he)
    simpa using this
  rw [filterStep_eq_composite g _ (k, cid) st1 n tid hn hth hct] at h2
  by_cases htv : tid ∈ st1.2
  · rw [if_pos htv] at h2
    cases h2
    obtain ⟨f', rfl⟩ : ∃ f', fuel = f' + 1 := ⟨fuel - 1, by omega⟩
    refine ⟨st1, [], st1.2, h1, by simp [getFilterableF, htv], ?_⟩
    simp only [List.isEmpty_nil, if_true]
    rw [hpost, hpre]
  · rw [if_neg htv] at h2
    cases hrec : getFilterableF g fuel tid st1.2 with
    | none => rw [hrec] at h2; exact absurd h2 (by simp)
    | some nv =>
      rw [hrec] at h2
      simp only [Option.some.injEq] at h2
      subst h2
      refine ⟨st1, nv.1, nv.2, h1, by rw [hrec], ?_⟩
      by_cases hemp : nv.1.isEmpty = true
      · rw [if_pos hemp] at hpost
        rw [if_pos hemp, hpost, hpre]
      · rw [if_neg hemp] at hpost
        rw [if_neg hemp, hpost, lookup_assign_self]

theorem getFilterableF_leafEntry (g : Graph) (fuel i : Nat) (vis : List Nat)
    (pre post : List (String × Nat)) (k : String) (cid : Nat)
    (d : Description) (m : CapMap) (vis2 : List Nat) (n : SchemaNode)
    (hcall : getFilterableF g (fuel + 1) i vis = some (m, vis2))
    (hfind : g.find? i = some (.obj (pre ++ (k, cid) :: post) d))
    (hv : i ∉ vis)
    (hn : g.find? cid = some n) (hth : isThrowingLazy n = false)
    (hct : compositeTarget g cid n = none)
    (hkpre : ∀ e ∈ pre, k ≠ e.1) (hkpost : ∀ e ∈ post, k ≠ e.1) :
    m.lookup k = if n.desc.filterable then some .tt else none := by
  have hfold : entriesFold (filterStep g (getFilterableF g fuel))
      (pre ++ (k, cid) :: post) ([], i :: vis) = some (m, vis2) := by
    simpa [getFilterableF, hv, hfind] using hcall
  obtain ⟨st1, st2, h1, h2, h3⟩ :=
    entriesFold_split _ pre post (k, cid) _ _ hfold
  have hpre : st1.1.lookup k = none := by
    have := entriesFold_frame (filterStep g (getFilterableF g fuel))
      Prod.fst (fun e => [e.1])
      (fun e st st' h q hq => filterStep_frame g _ e st st' h q hq)
      pre _ st1 h1 k (fun e he => by simpa using hkpre e he)
    simpa using this
  have hpost : m.lookup k = st2.1.lookup k := by
    have := entriesFold_frame (filterStep g (getFilterableF g fuel))
      Prod.fst (fun e => [e.1])
      (fun e st st' h q hq => filterStep_frame g _ e st st' h q hq)
      post st2 (m, vis2) h3 k (fun e he => by simpa using hkpost e he)
    simpa using this
  rw [filterStep_eq_leaf g _ (k, cid) st1 n hn hth hct] at h2
  cases h2
  by_cases hf : n.desc.filterable = true
  · rw [if_pos hf] at hpost
    rw [if_pos hf, hpost]
    exact lookup_assign_self st1.1 k .tt
  · rw [if_neg hf] at hpost
    rw [if_neg hf, hpost, hpre]

/-! ### The pruning invariant (claim C2) -/

theorem prunedMap_assign (m : CapMap) (k : String) (v : CapVal)
    (hm : prunedMap m = true) (hv : prunedVal v = true) :
    prunedMap (assign m k v) = true := by
  induction m with
  | nil => simp [assign, prunedMap, hv]
  | cons e rest ih =>
    simp only [prunedMap, Bool.and_eq_true] at hm
    by_cases he : e.1 == k
    · simp [assign, he, prunedMap, hv, hm.2]
    · simp only [assign, he, Bool.false_eq_true, if_false]
      simp [prunedMap, hm.1, ih hm.2]

theorem prunedMap_alias_fold (ps : List String) (acc : CapMap)
    (hacc : prunedMap acc = true) :
    prunedMap (ps.foldl (fun a p => assign a p .tt) acc) = true := by
  induction ps generalizing acc with
  | nil => simpa using hacc
  | cons p rest ih =>
    rw [List.foldl_cons]
    exact ih _ (prunedMap_assign acc p .tt hacc (by simp [prunedVal]))

theorem getFilterableF_pruned (g : Graph) :
    ∀ (fuel i : Nat) (vis : List Nat) (m : CapMap) (vis2 : List Nat),
      getFilterableF g fuel i vis = some (m, vis2) → prunedMap m = true := by
  intro fuel
  induction fuel with
  | zero => intro i vis m vis2 h; simp [getFilterableF] at h
  | succ fuel ih =>
    intro i vis m vis2 h
    by_cases hv : i ∈ vis
    · simp [getFilterableF, hv] at h
      rw [h.1]
      rfl
    · cases hfind : g.find? i with
      | none =>
        simp [getFilterableF, hv, hfind] at h
        rw [h.1]; rfl
      | some node =>
        cases node with
        | obj shape d =>
          have hfold : entriesFold (filterStep g (getFilterableF g fuel))
              shape ([], i :: vis) = some (m, vis2) := by
            simpa [getFilterableF, hv, hfind] using h
          have := entriesFold_pres (filterStep g (getFilterableF g fuel))
            (fun st => prunedMap st.1 = true)
            (by
              intro e st st' hstep hP
              cases hfe : g.find? e.2 with
              | none =>
                rw [filterStep_eq_dangling g _ e st hfe] at hstep
                cases hstep; exact hP
              | some n =>
                cases hth : isThrowingLazy n with
                | true =>
                  rw [filterStep_eq_throwing g _ e st n hfe hth] at hstep
                  cases hstep; exact hP
                | false =>
                  cases hct : compositeTarget g e.2 n with
                  | none =>
                    rw [filterStep_eq_leaf g _ e st n hfe hth hct] at hstep
                    cases hstep
                    by_cases hf : n.desc.filterable = true
                    · simp only [hf, if_true]
                      exact prunedMap_assign st.1 e.1 .tt hP (by rfl)
                    · simp only [hf, if_false]
                      exact hP
                  | some tid =>
                    rw [filterStep_eq_composite g _ e st n tid hfe hth hct]
                      at hstep
                    by_cases htv : tid ∈ st.2
                    · rw [if_pos htv] at hstep; cases hstep; exact hP
                    · rw [if_neg htv] at hstep
                      cases hrec : getFilterableF g fuel tid st.2 with
                      | none => rw [hrec] at hstep; exact absurd hstep (by simp)
                      | some nv =>
                        rw [hrec] at hstep
                        simp only [Option.some.injEq] at hstep
                        subst hstep
                        by_cases hemp : nv.1.isEmpty = true
                        · simp only [hemp, if_true]; exact hP
                        · simp only [hemp, if_false]
                          refine prunedMap_assign st.1 e.1 (.sub nv.1) hP ?_
                          simp only [prunedVal, Bool.and_eq_true,
                            Bool.not_eq_true']
                          exact ⟨by simpa using hemp, ih tid st.2 nv.1 nv.2
                            (by rw [hrec])⟩)
            shape ([], i :: vis) (m, vis2) hfold (by rfl)
          exact this
        | leaf d =>
          simp [getFilterableF, hv, hfind] at h; rw [h.1]; rfl
        | arr eid d =>
          simp [getFilterableF, hv, hfind] at h; rw [h.1]; rfl
        | lazy res d =>
          simp [getFilterableF, hv, hfind] at h; rw [h.1]; rfl

theorem getSortableF_pruned (g : Graph) :
    ∀ (fuel i : Nat) (m : CapMap),
      getSortableF g fuel i = some m → prunedMap m = true := by
  intro fuel
  induction fuel with
  | zero => intro i m h; simp [getSortableF] at h
  | succ fuel ih =>
    intro i m h
    cases hfind : g.find? i with
    | none => simp [getSortableF, hfind] at h; rw [h]; rfl
    | some node =>
      cases node with
      | obj shape d =>
        have hfold : entriesFold (sortStep g (getSortableF g fuel))
            shape [] = some m := by
          simpa [getSortableF, hfind] using h
        exact entriesFold_pres (sortStep g (getSortableF g fuel))
          (fun acc => prunedMap acc = true)
          (by
            intro e acc acc' hstep hP
            cases hfe : g.find? e.2 with
            | none =>
              rw [sortStep_eq_dangling g _ e acc hfe] at hstep
              cases hstep; exact hP
            | some n =>
              cases hobj : isObjNode n with
              | false =>
                rw [sortStep_eq_nonobj g _ e acc n hfe hobj] at hstep
                cases hstep
                by_cases hs : n.desc.sortable = true
                · simp only [hs, if_true]
                  exact prunedMap_assign acc e.1 .tt hP (by rfl)
                · simp only [hs, if_false]; exact hP
              | true =>
                rw [sortStep_eq_obj g _ e acc n hfe hobj] at hstep
                cases hrec : getSortableF g fuel e.2 with
                | none => rw [hrec] at hstep; exact absurd hstep (by simp)
                | some t =>
                  rw [hrec] at hstep
                  simp only [Option.some.injEq] at hstep
                  subst hstep
                  by_cases hemp : t.isEmpty = true
                  · simp only [hemp, if_true]; exact hP
                  · simp only [hemp, if_false]
                    refine prunedMap_assign acc e.1 (.sub t) hP ?_
                    simp only [prunedVal, Bool.and_eq_true, Bool.not_eq_true']
                    exact ⟨by simpa using hemp, ih e.2 t hrec⟩)
          shape [] m hfold (by rfl)
      | leaf d => simp [getSortableF, hfind] at h; rw [h]; rfl
      | arr eid d => simp [getSortableF, hfind] at h; rw [h]; rfl
      | lazy res d => simp [getSortableF, hfind] at h; rw [h]; rfl

theorem getQueryableF_pruned (g : Graph) :
    ∀ (fuel i : Nat) (m : CapMap),
      getQueryableF g fuel i = some m → prunedMap m = true := by
  intro fuel
  induction fuel with
  | zero => intro i m h; simp [getQueryableF] at h
  | succ fuel ih =>
    intro i m h
    cases hfind : g.find? i with
    | none => simp [getQueryableF, hfind] at h; rw [h]; rfl
    | some node =>
      cases node with
      | obj shape d =>
        have hfold : entriesFold (qStep g (getQueryableF g fuel))
            shape [] = some m := by
          simpa [getQueryableF, hfind] using h
        exact entriesFold_pres (qStep g (getQueryableF g fuel))
          (fun acc => prunedMap acc = true)
          (by
            intro e acc acc' hstep hP
            cases hfe : g.find? e.2 with
            | none =>
              rw [qStep_eq_dangling g _ e acc hfe] at hstep
              cases hstep; exact hP
            | some n =>
              cases hobj : isObjNode n with
              | false =>
                rw [qStep_eq_nonobj g _ e acc n hfe hobj] at hstep
                cases hstep
                by_cases hz : n.desc.queryable = true
                · simp only [hz, if_true]
                  cases hp : n.desc.path with
                  | none => exact prunedMap_assign acc e.1 .tt hP (by rfl)
                  | some ps => exact prunedMap_alias_fold ps acc hP
                · simp only [hz, if_false]; exact hP
              | true =>
                rw [qStep_eq_obj g _ e acc n hfe hobj] at hstep
                cases hrec : getQueryableF g fuel e.2 with
                | none => rw [hrec] at hstep; exact absurd hstep (by simp)
                | some t =>
                  rw [hrec] at hstep
                  simp only [Option.some.injEq] at hstep
                  subst hstep
                  by_cases hemp : t.isEmpty = true
                  · simp only [hemp, if_true]; exact hP
                  · simp only [hemp, if_false]
                    refine prunedMap_assign acc e.1 (.sub t) hP ?_
                    simp only [prunedVal, Bool.and_eq_true, Bool.not_eq_true']
                    exact ⟨by simpa using hemp, ih e.2 t hrec⟩)
          shape [] m hfold (by rfl)
      | leaf d => simp [getQueryableF, hfind] at h; rw [h]; rfl
      | arr eid d => simp [getQueryableF, hfind] at h; rw [h]; rfl
      | lazy res d => simp [getQueryableF, hfind] at h; rw [h]; rfl

/-- C2 counterexample: in `gC2` the key `a` names a composite child whose
recursive result is empty, yet `a` is present (as `true`, written by the
sibling's path alias) in `getQueryable`'s output — so "a key for a composite
child is present iff the recursive result for that child is non-empty" is
false for `getQueryable` as claimed. -/
theorem c2_counterexample :
    getQueryableF gC2 3 0 = some [("a", CapVal.tt)] ∧
    getQueryableF gC2 2 1 = some [] := by
  exact ⟨rfl, rfl⟩

/-- C2 (amended): every value of the capability trees produced by
`getFilterable`, `getSortable` and `getQueryable` is either `true` or a
recursively non-empty nested tree (no composite key ever carries an empty
subtree); and a composite child's key is present if and only if the child's
recursive result — taken at the traversal state at which the child is
processed, for `getFilterable`'s shared visited set — is non-empty, in
which case it carries exactly that subtree.  For `getQueryable` the
equivalence additionally requires that no sibling queryable leaf's path
alias writes the composite child's key (the counterexample shows a
colliding alias inserts the key with value `true` even though the child's
subtree is empty). -/
theorem c2_pruning_invariant :
    (∀ (g : Graph) (fuel i : Nat) (vis : List Nat) (m : CapMap)
        (vis2 : List Nat),
      getFilterableF g fuel i vis = some (m, vis2) → prunedMap m = true) ∧
    (∀ (g : Graph) (fuel i : Nat) (m : CapMap),
      getSortableF g fuel i = some m → prunedMap m = true) ∧
    (∀ (g : Graph) (fuel i : Nat) (m : CapMap),
      getQueryableF g fuel i = some m → prunedMap m = true) ∧
    (∀ (g : Graph) (fuel i : Nat) (vis : List Nat)
        (pre post : List (String × Nat)) (k : String) (cid : Nat)
        (d : Description) (m : CapMap) (vis2 : List Nat) (n : SchemaNode)
        (tid : Nat),
      getFilterableF g (fuel + 1) i vis = some (m, vis2) →
      g.find? i = some (.obj (pre ++ (k, cid) :: post) d) →
      i ∉ vis →
      g.find? cid = some n → isThrowingLazy n = false →
      compositeTarget g cid n = some tid → 0 < fuel →
      (∀ e ∈ pre, k ≠ e.1) → (∀ e ∈ post, k ≠ e.1) →
      ∃ st1 t vis3,
        entriesFold (filterStep g (getFilterableF g fuel)) pre
          ([], i :: vis) = some st1 ∧
        getFilterableF g fuel tid st1.2 = some (t, vis3) ∧
        m.lookup k = if t.isEmpty then none else some (.sub t)) ∧
    (∀ (g : Graph) (fuel i : Nat) (pre post : List (String × Nat))
        (k : String) (cid : Nat) (d : Description) (m : CapMap)
        (n : SchemaNode),
      getSortableF g (fuel + 1) i = some m →
      g.find? i = some (.obj (pre ++ (k, cid) :: post) d) →
      g.find? cid = some n → isObjNode n = true →
      (∀ e ∈ pre, k ≠ e.1) → (∀ e ∈ post, k ≠ e.1) →
      ∃ t, getSortableF g fuel cid = some t ∧
        m.lookup k = if t.isEmpty then none else some (.sub t)) ∧
    (∀ (g : Graph) (fuel i : Nat) (pre post : List (String × Nat))
        (k : String) (cid : Nat) (d : Description) (m : CapMap)
        (n : SchemaNode),
      getQueryableF g (fuel + 1) i = some m →
      g.find? i = some (.obj (pre ++ (k, cid) :: post) d) →
      g.find? cid = some n → isObjNode n = true →
      (∀ e ∈ pre, k ∉ qWrites g e) → (∀ e ∈ post, k ∉ qWrites g e) →
      ∃ t, getQueryableF g fuel cid = some t ∧
        m.lookup k = if t.isEmpty then none else some (.sub t)) := by
  refine ⟨?_, ?_, ?_, ?_, ?_, ?_⟩
  · exact fun g fuel i vis m vis2 h => getFilterableF_pruned g fuel i vis m vis2 h
  · exact fun g fuel i m h => getSortableF_pruned g fuel i m h
  · exact fun g fuel i m h => getQueryableF_pruned g fuel i m h
  · intro g fuel i vis pre post k cid d m vis2 n tid hcall hfind hv hn hth hct
      hfuel hkpre hkpost
    exact getFilterableF_child g fuel i vis pre post k cid d m vis2 n tid
      hcall hfind hv hn hth hct hfuel hkpre hkpost
  · intro g fuel i pre post k cid d m n hcall hfind hn hobj hkpre hkpost
    exact getSortableF_child g fuel i pre post k cid d m n hcall hfind hn hobj
      hkpre hkpost
  · intro g fuel i pre post k cid d m n hcall hfind hn hobj hkpre hkpost
    exact getQueryableF_child g fuel i pre post k cid d m n hcall hfind hn hobj
      hkpre hkpost

/-- Witness for C2 on `gNest`. -/
theorem c2_witness :
    prunedMap [("name", CapVal.tt),
      ("profile", CapVal.sub [("bio", CapVal.tt)])] = true ∧
    (∃ st1 t vis3,
      entriesFold (filterStep gNest (getFilterableF gNest 3))
        [("name", 1)] ([], [0]) = some st1 ∧
      getFilterableF gNest 3 2 st1.2 = some (t, vis3) ∧
      (List.lookup "profile" [("name", CapVal.tt),
        ("profile", CapVal.sub [("bio", CapVal.tt)])] =
        if t.isEmpty then none else some (.sub t))) ∧
    (∃ t, getSortableF gNest 3 2 = some t ∧
      (List.lookup "profile" [("name", CapVal.tt),
        ("profile", CapVal.sub [("bio", CapVal.tt)])] =
        if t.isEmpty then none else some (.sub t))) ∧
    (∃ t, getQueryableF gNest 3 2 = some t ∧
      (List.lookup "profile" [("name", CapVal.tt),
        ("profile", CapVal.sub [("bio", CapVal.tt)])] =
        if t.isEmpty then none else some (.sub t))) := by
  refine ⟨?_, ?_, ?_, ?_⟩
  · exact c2_pruning_invariant.1 gNest 4 0 [] _ [2, 0] (by rfl)
  · exact c2_pruning_invariant.2.2.2.1 gNest 3 0 [] [("name", 1)] []
      "profile" 2 {} _ [2, 0] (.obj [("bio", 3)] {}) 2 (by rfl) (by rfl)
      (by simp) (by rfl) (by rfl) (by rfl) (by omega) (by decide) (by simp)
  · exact c2_pruning_invariant.2.2.2.2.1 gNest 3 0 [("name", 1)] []
      "profile" 2 {} _ (.obj [("bio", 3)] {}) (by rfl) (by rfl) (by rfl)
      (by rfl) (by decide) (by simp)
  · exact c2_pruning_invariant.2.2.2.2.2 gNest 3 0 [("name", 1)] []
      "profile" 2 {} _ (.obj [("bio", 3)] {}) (by rfl) (by rfl) (by rfl)
      (by rfl) (by decide) (by simp)

/-- C3 counterexample: the claim says all three traversals recurse into an
array-of-object child, so the queryable leaf `items[].name` should appear
under `items`; but `getQueryable` (like `getSortable`) only recurses into
plain object children and returns the empty tree here. -/
theorem c3_counterexample :
    getQueryableF gC3 9 0 = some [] ∧ getSortableF gC3 9 0 = some [] := by
  exact ⟨rfl, rfl⟩

/-- C3 (amended): `getFilterable` recurses into all three composite child
kinds — plain object, deferred node resolving to an object (or to an array
of objects), and array-of-object — recording the child's recursive result
under the child's key; `getSortable` and `getQueryable` recurse only into
plain object children, and a lazy or array child contributes at most its
own annotation (`true` when the child node itself is flagged), never the
flagged leaves inside it; a capability-flagged non-composite child is
recorded as `true` under its key wherever it is reached. -/
theorem c3_composite_children :
    (∀ (g : Graph) (fuel i : Nat) (vis : List Nat)
        (pre post : List (String × Nat)) (k : String) (cid : Nat)
        (d cd : Description) (csh : List (String × Nat)) (m : CapMap)
        (vis2 : List Nat),
      getFilterableF g (fuel + 1) i vis = some (m, vis2) →
      g.find? i = some (.obj (pre ++ (k, cid) :: post) d) → i ∉ vis →
      g.find? cid = some (.obj csh cd) → 0 < fuel →
      (∀ e ∈ pre, k ≠ e.1) → (∀ e ∈ post, k ≠ e.1) →
      ∃ st1 t vis3,
        entriesFold (filterStep g (getFilterableF g fuel)) pre
          ([], i :: vis) = some st1 ∧
        getFilterableF g fuel cid st1.2 = some (t, vis3) ∧
        m.lookup k = if t.isEmpty then none else some (.sub t)) ∧
    (∀ (g : Graph) (fuel i : Nat) (vis : List Nat)
        (pre post : List (String × Nat)) (k : String) (cid rid : Nat)
        (d ld cd : Description) (csh : List (String × Nat)) (m : CapMap)
        (vis2 : List Nat),
      getFilterableF g (fuel + 1) i vis = some (m, vis2) →
      g.find? i = some (.obj (pre ++ (k, cid) :: post) d) → i ∉ vis →
      g.find? cid = some (.lazy (some rid) ld) →
      g.find? rid = some (.obj csh cd) → 0 < fuel →
      (∀ e ∈ pre, k ≠ e.1) → (∀ e ∈ post, k ≠ e.1) →
      ∃ st1 t vis3,
        entriesFold (filterStep g (getFilterableF g fuel)) pre
          ([], i :: vis) = some st1 ∧
        getFilterableF g fuel rid st1.2 = some (t, vis3) ∧
        m.lookup k = if t.isEmpty then none else some (.sub t)) ∧
    (∀ (g : Graph) (fuel i : Nat) (vis : List Nat)
        (pre post : List (String × Nat)) (k : String) (cid eid : Nat)
        (d ad cd : Description) (csh : List (String × Nat)) (m : CapMap)
        (vis2 : List Nat),
      getFilterableF g (fuel + 1) i vis = some (m, vis2) →
      g.find? i = some (.obj (pre ++ (k, cid) :: post) d) → i ∉ vis →
      g.find? cid = some (.arr eid ad) →
      g.find? eid = some (.obj csh cd) → 0 < fuel →
      (∀ e ∈ pre, k ≠ e.1) → (∀ e ∈ post, k ≠ e.1) →
      ∃ st1 t vis3,
        entriesFold (filterStep g (getFilterableF g fuel)) pre
          ([], i :: vis) = some st1 ∧
        getFilterableF g fuel eid st1.2 = some (t, vis3) ∧
        m.lookup k = if t.isEmpty then none else some (.sub t)) ∧
    (∀ (g : Graph) (fuel i : Nat) (pre post : List (String × Nat))
        (k : String) (cid : Nat) (d cd : Description)
        (csh : List (String × Nat)) (m : CapMap),
      getSortableF g (fuel + 1) i = some m →
      g.find? i = some (.obj (pre ++ (k, cid) :: post) d) →
      g.find? cid = some (.obj csh cd) →
      (∀ e ∈ pre, k ≠ e.1) → (∀ e ∈ post, k ≠ e.1) →
      ∃ t, getSortableF g fuel cid = some t ∧
        m.lookup k = if t.isEmpty then none else some (.sub t)) ∧
    (∀ (g : Graph) (fuel i : Nat) (pre post : List (String × Nat))
        (k : String) (cid : Nat) (d cd : Description)
        (csh : List (String × Nat)) (m : CapMap),
      getQueryableF g (fuel + 1) i = some m →
      g.find? i = some (.obj (pre ++ (k, cid) :: post) d) →
      g.find? cid = some (.obj csh cd) →
      (∀ e ∈ pre, k ∉ qWrites g e) → (∀ e ∈ post, k ∉ qWrites g e) →
      ∃ t, getQueryableF g fuel cid = some t ∧
        m.lookup k = if t.isEmpty then none else some (.sub t)) ∧
    (∀ (g : Graph) (fuel i : Nat) (pre post : List (String × Nat))
        (k : String) (cid : Nat) (d : Description) (m : CapMap)
        (n : SchemaNode),
      getSortableF g (fuel + 1) i = some m →
      g.find? i = some (.obj (pre ++ (k, cid) :: post) d) →
      g.find? cid = some n → isObjNode n = false →
      (∀ e ∈ pre, k ≠ e.1) → (∀ e ∈ post, k ≠ e.1) →
      m.lookup k = if n.desc.sortable then some .tt else none) ∧
    (∀ (g : Graph) (fuel i : Nat) (pre post : List (String × Nat))
        (k : String) (cid : Nat) (d : Description) (m : CapMap)
        (n : SchemaNode),
      getQueryableF g (fuel + 1) i = some m →
      g.find? i = some (.obj (pre ++ (k, cid) :: post) d) →
      g.find? cid = some n → isObjNode n = false →
      n.desc.queryable = false →
      (∀ e ∈ pre, k ∉ qWrites g e) → (∀ e ∈ post, k ∉ qWrites g e) →
      m.lookup k = none) ∧
    (∀ (g : Graph) (fuel i : Nat) (vis : List Nat)
        (pre post : List (String × Nat)) (k : String) (cid : Nat)
        (d : Description) (m : CapMap) (vis2 : List Nat) (n : SchemaNode),
      getFilterableF g (fuel + 1) i vis = some (m, vis2) →
      g.find? i = some (.obj (pre ++ (k, cid) :: post) d) → i ∉ vis →
      g.find? cid = some n → isThrowingLazy n = false →
      compositeTarget g cid n = none →
      (∀ e ∈ pre, k ≠ e.1) → (∀ e ∈ post, k ≠ e.1) →
      m.lookup k = if n.desc.filterable then some .tt else none) := by
  refine ⟨?_, ?_, ?_, ?_, ?_, ?_, ?_, ?_⟩
  · intro g fuel i vis pre post k cid d cd csh m vis2 hcall hfind hv hn hfuel
      hkpre hkpost
    exact getFilterableF_child g fuel i vis pre post k cid d m vis2
      (.obj csh cd) cid hcall hfind hv hn (by rfl)
      (by simp [compositeTarget]) hfuel hkpre hkpost
  · intro g fuel i vis pre post k cid rid d ld cd csh m vis2 hcall hfind hv
      hn hrid hfuel hkpre hkpost
    exact getFilterableF_child g fuel i vis pre post k cid d m vis2
      (.lazy (some rid) ld) rid hcall hfind hv hn (by rfl)
      (by simp [compositeTarget, hrid]) hfuel hkpre hkpost
  · intro g fuel i vis pre post k cid eid d ad cd csh m vis2 hcall hfind hv
      hn heid hfuel hkpre hkpost
    exact getFilterableF_child g fuel i vis pre post k cid d m vis2
      (.arr eid ad) eid hcall hfind hv hn (by rfl)
      (by simp [compositeTarget, heid]) hfuel hkpre hkpost
  · intro g fuel i pre post k cid d cd csh m hcall hfind hn hkpre hkpost
    exact getSortableF_child g fuel i pre post k cid d m (.obj csh cd)
      hcall hfind hn (by rfl) hkpre hkpost
  · intro g fuel i pre post k cid d cd csh m hcall hfind hn hkpre hkpost
    exact getQueryableF_child g fuel i pre post k cid d m (.obj csh cd)
      hcall hfind hn (by rfl) hkpre hkpost
  · intro g fuel i pre post k cid d m n hcall hfind hn hobj hkpre hkpost
    exact getSortableF_leafEntry g fuel i pre post k cid d m n hcall hfind
      hn hobj hkpre hkpost
  · intro g fuel i pre post k cid d m n hcall hfind hn hobj hz hkpre hkpost
    exact getQueryableF_silentEntry g fuel i pre post k cid d m n hcall hfind
      hn hobj hz hkpre hkpost
  · intro g fuel i vis pre post k cid d m vis2 n hcall hfind hv hn hth hct
      hkpre hkpost
    exact getFilterableF_leafEntry g fuel i vis pre post k cid d m vis2 n
      hcall hfind hv hn hth hct hkpre hkpost

/-- Witness for C3 on `gKinds`. -/
theorem c3_witness :
    (∃ st1 t vis3,
      entriesFold (filterStep gKinds (getFilterableF gKinds 3)) []
        ([], [0]) = some st1 ∧
      getFilterableF gKinds 3 1 st1.2 = some (t, vis3) ∧
      (List.lookup "o" [("o", CapVal.sub [("x", CapVal.tt)]),
        ("lz", CapVal.sub [("y", CapVal.tt)]),
        ("ar", CapVal.sub [("z", CapVal.tt)]), ("leafF", CapVal.tt)] =
        if t.isEmpty then none else some (.sub t))) ∧
    (∃ st1 t vis3,
      entriesFold (filterStep gKinds (getFilterableF gKinds 3)) [("o", 1)]
        ([], [0]) = some st1 ∧
      getFilterableF gKinds 3 3 st1.2 = some (t, vis3) ∧
      (List.lookup "lz" [("o", CapVal.sub [("x", CapVal.tt)]),
        ("lz", CapVal.sub [("y", CapVal.tt)]),
        ("ar", CapVal.sub [("z", CapVal.tt)]), ("leafF", CapVal.tt)] =
        if t.isEmpty then none else some (.sub t))) ∧
    (∃ st1 t vis3,
      entriesFold (filterStep gKinds (getFilterableF gKinds 3))
        [("o", 1), ("lz", 2)] ([], [0]) = some st1 ∧
      getFilterableF gKinds 3 5 st1.2 = some (t, vis3) ∧
      (List.lookup "ar" [("o", CapVal.sub [("x", CapVal.tt)]),
        ("lz", CapVal.sub [("y", CapVal.tt)]),
        ("ar", CapVal.sub [("z", CapVal.tt)]), ("leafF", CapVal.tt)] =
        if t.isEmpty then none else some (.sub t))) ∧
    (∃ t, getSortableF gKinds 3 1 = some t ∧
      (List.lookup "o" [("o", CapVal.sub [("x", CapVal.tt)]),
        ("leafF", CapVal.tt)] =
        if t.isEmpty then none else some (.sub t))) ∧
    (∃ t, getQueryableF gKinds 3 1 = some t ∧
      (List.lookup "o" [("o", CapVal.sub [("x", CapVal.tt)]),
        ("leafF", CapVal.tt)] =
        if t.isEmpty then none else some (.sub t))) ∧
    List.lookup "lz" [("o", CapVal.sub [("x", CapVal.tt)]),
      ("leafF", CapVal.tt)] = none ∧
    (List.lookup "leafF" [("o", CapVal.sub [("x", CapVal.tt)]),
      ("lz", CapVal.sub [("y", CapVal.tt)]),
      ("ar", CapVal.sub [("z", CapVal.tt)]), ("leafF", CapVal.tt)] =
      some CapVal.tt) := by
  refine ⟨?_, ?_, ?_, ?_, ?_, ?_, ?_⟩
  · exact c3_composite_children.1 gKinds 3 0 [] []
      [("lz", 2), ("ar", 4), ("leafF", 6)] "o" 1 {} {} [("x", 7)] _ [5, 3, 1, 0]
      (by rfl) (by rfl) (by simp) (by rfl) (by omega) (by simp) (by decide)
  · exact c3_composite_children.2.1 gKinds 3 0 [] [("o", 1)]
      [("ar", 4), ("leafF", 6)] "lz" 2 3 {} {} {} [("y", 8)] _ [5, 3, 1, 0]
      (by rfl) (by rfl) (by simp) (by rfl) (by rfl) (by omega) (by decide)
      (by decide)
  · exact c3_composite_children.2.2.1 gKinds 3 0 [] [("o", 1), ("lz", 2)]
      [("leafF", 6)] "ar" 4 5 {} {} {} [("z", 9)] _ [5, 3, 1, 0]
      (by rfl) (by rfl) (by simp) (by rfl) (by rfl) (by omega) (by decide)
      (by decide)
  · exact c3_composite_children.2.2.2.1 gKinds 2 0 []
      [("lz", 2), ("ar", 4), ("leafF", 6)] "o" 1 {} {} [("x", 7)] _
      (by rfl) (by rfl) (by rfl) (by simp) (by decide)
  · exact c3_composite_children.2.2.2.2.1 gKinds 2 0 []
      [("lz", 2), ("ar", 4), ("leafF", 6)] "o" 1 {} {} [("x", 7)] _
      (by rfl) (by rfl) (by rfl) (by simp) (by decide)
  · exact c3_composite_children.2.2.2.2.2.1 gKinds 2 0 [("o", 1)]
      [("ar", 4), ("leafF", 6)] "lz" 2 {} _ (.lazy (some 3) {})
      (by rfl) (by rfl) (by rfl) (by rfl) (by decide) (by decide)
  · exact c3_composite_children.2.2.2.2.2.2.2 gKinds 3 0 []
      [("o", 1), ("lz", 2), ("ar", 4)] [] "leafF" 6 {} _ [5, 3, 1, 0]
      (.leaf { filterable := true, sortable := true, queryable := true })
      (by rfl) (by rfl) (by simp) (by rfl) (by rfl) (by rfl) (by decide)
      (by simp)

/-- C4 counterexample: the claim says the output never contains an entry
under the declared key (`mail`) of a leaf annotated
`.queryable().path(['email'])`; but a sibling leaf whose alias is `mail`
writes that key, so the output is exactly `{email: true, mail: true}`. -/
theorem c4_counterexample :
    getQueryableF gC4 2 0 =
      some [("email", CapVal.tt), ("mail", CapVal.tt)] := by
  exact rfl

/-- C4 (amended): a leaf annotated `.queryable().path(['aliasName'])` makes
`getQueryable` record `aliasName: true` and nothing under its declared key,
provided the alias differs from the declared key, no later sibling's write
set contains the alias name, and no sibling's write set contains the
declared key (the counterexample shows a sibling aliasing to the declared
key reintroduces it).  A leaf annotated `.queryable()` without a path alias
appears under its declared key, provided no sibling's write set contains
that key. -/
theorem c4_path_alias :
    (∀ (g : Graph) (fuel i : Nat) (pre post : List (String × Nat))
        (k a : String) (cid : Nat) (d : Description) (m : CapMap)
        (n : SchemaNode),
      getQueryableF g (fuel + 1) i = some m →
      g.find? i = some (.obj (pre ++ (k, cid) :: post) d) →
      g.find? cid = some n → isObjNode n = false →
      n.desc.queryable = true → n.desc.path = some [a] → a ≠ k →
      (∀ e ∈ pre, k ∉ qWrites g e) → (∀ e ∈ post, k ∉ qWrites g e) →
      (∀ e ∈ post, a ∉ qWrites g e) →
      m.lookup a = some .tt ∧ m.lookup k = none) ∧
    (∀ (g : Graph) (fuel i : Nat) (pre post : List (String × Nat))
        (k : String) (cid : Nat) (d : Description) (m : CapMap)
        (n : SchemaNode),
      getQueryableF g (fuel + 1) i = some m →
      g.find? i = some (.obj (pre ++ (k, cid) :: post) d) →
      g.find? cid = some n → isObjNode n = false →
      n.desc.queryable = true → n.desc.path = none →
      (∀ e ∈ pre, k ∉ qWrites g e) → (∀ e ∈ post, k ∉ qWrites g e) →
      m.lookup k = some .tt) := by
  constructor
  · intro g fuel i pre post k a cid d m n hcall hfind hn hobj hq hp hak
      hkpre hkpost hapost
    obtain ⟨h1, h2⟩ := getQueryableF_aliasEntry g fuel i pre post k cid d m
      n [a] hcall hfind hn hobj hq hp
    refine ⟨h1 a (by simp) hapost, h2 ?_ hkpre hkpost⟩
    simpa using Ne.symm hak
  · intro g fuel i pre post k cid d m n hcall hfind hn hobj hq hp hkpre hkpost
    exact getQueryableF_leafEntry g fuel i pre post k cid d m n hcall hfind
      hn hobj hq hp hkpre hkpost

/-- Witness for C4 on `gAlias`. -/
theorem c4_witness :
    (List.lookup "email" [("name", CapVal.tt), ("email", CapVal.tt)] =
        some CapVal.tt ∧
      List.lookup "mail" [("name", CapVal.tt), ("email", CapVal.tt)] =
        none) ∧
    List.lookup "name" [("name", CapVal.tt), ("email", CapVal.tt)] =
      some CapVal.tt := by
  constructor
  · exact c4_path_alias.1 gAlias 1 0 [("name", 1)] [] "mail" "email" 2 {} _
      (.leaf { queryable := true, path := some ["email"] })
      (by rfl) (by rfl) (by rfl) (by rfl) (by rfl) (by rfl) (by decide)
      (by decide) (by decide) (by decide)
  · exact c4_path_alias.2 gAlias 1 0 [] [("mail", 2)] "name" 1 {} _
      (.leaf { queryable := true })
      (by rfl) (by rfl) (by rfl) (by rfl) (by rfl) (by rfl) (by decide)
      (by decide)

theorem pathStep_eq_nonComposite (g : Graph) (pk : List String)
    (rec : Nat → List String → List Nat → Option (PathMap × List Nat))
    (e : String × Nat) (st : PathMap × List Nat)
    (h : nonComposite g e.2 = true) :
    pathStep g pk rec e st = some (leafWrite g pk st.1 e, st.2) := by
  unfold nonComposite at h
  cases hfe : g.find? e.2 with
  | none => simp [pathStep, leafWrite, hfe]
  | some n =>
    simp only [hfe, Bool.or_eq_true, Option.isNone_iff_eq_none] at h
    cases hth : isThrowingLazy n with
    | true => simp [pathStep, leafWrite, hfe, hth]
    | false =>
      rw [hth] at h
      simp only [Bool.false_eq_true, false_or] at h
      cases hp : n.desc.path with
      | some ps => simp [pathStep, leafWrite, hfe, hth, h, hp]
      | none => simp [pathStep, leafWrite, hfe, hth, h, hp]

theorem entriesFold_allLeaf (g : Graph) (pk : List String)
    (rec : Nat → List String → List Nat → Option (PathMap × List Nat)) :
    ∀ (shape : List (String × Nat)) (st : PathMap × List Nat),
      (∀ e ∈ shape, nonComposite g e.2 = true) →
      entriesFold (pathStep g pk rec) shape st =
        some (shape.foldl (leafWrite g pk) st.1, st.2) := by
  intro shape
  induction shape with
  | nil => intro st _; rfl
  | cons e rest ih =>
    intro st hall
    rw [entriesFold_cons,
      pathStep_eq_nonComposite g pk rec e st (hall e (by simp))]
    simp only []
    rw [ih (leafWrite g pk st.1 e, st.2)
      (fun e' he' => hall e' (by simp [he']))]
    rw [List.foldl_cons]

theorem getPathF_allLeaf (g : Graph) (fuel i : Nat) (pk : List String)
    (vis : List Nat) (shape : List (String × Nat)) (d : Description)
    (hfind : g.find? i = some (.obj shape d)) (hv : i ∉ vis)
    (hall : ∀ e ∈ shape, nonComposite g e.2 = true) :
    getPathF g (fuel + 1) i pk vis =
      some (shape.foldl (leafWrite g pk) [], i :: vis) := by
  have : getPathF g (fuel + 1) i pk vis =
      entriesFold (pathStep g pk (getPathF g fuel)) shape ([], i :: vis) := by
    simp [getPathF, hv, hfind]
  rw [this, entriesFold_allLeaf g pk (getPathF g fuel) shape _ hall]

theorem leafWrite_frame (g : Graph) (pk : List String) (acc : PathMap)
    (e : String × Nat) (q : String) (hq : q ∉ leafWriteKey g pk e) :
    (leafWrite g pk acc e).lookup q = acc.lookup q := by
  unfold leafWriteKey at hq
  cases hfe : g.find? e.2 with
  | none => simp [leafWrite, hfe]
  | some n =>
    simp only [hfe] at hq
    cases hth : isThrowingLazy n with
    | true => simp [leafWrite, hfe, hth]
    | false =>
      rw [hth] at hq
      simp only [Bool.false_eq_true, if_false] at hq
      cases hp : n.desc.path with
      | some ps =>
        rw [hp] at hq
        have : q ≠ joinDots (pk ++ [e.1]) := by simpa using hq
        simp [leafWrite, hfe, hth, hp, lookup_assign_ne _ _ _ _ this]
      | none =>
        rw [hp] at hq
        have : q ≠ e.1 := by simpa using hq
        simp [leafWrite, hfe, hth, hp, lookup_assign_ne _ _ _ _ this]

theorem foldl_leafWrite_frame (g : Graph) (pk : List String) :
    ∀ (shape : List (String × Nat)) (acc : PathMap) (q : String),
      (∀ e ∈ shape, q ∉ leafWriteKey g pk e) →
      (shape.foldl (leafWrite g pk) acc).lookup q = acc.lookup q := by
  intro shape
  induction shape with
  | nil => intro acc q _; rfl
  | cons e rest ih =>
    intro acc q hq
    rw [List.foldl_cons, ih _ q (fun e' he' => hq e' (by simp [he'])),
      leafWrite_frame g pk acc e q (hq e (by simp))]

/-- C9 counterexample: for the depth-3 leaf `a.b.c`, `getPath` records only
the shortened keys `c`, `a.c`, `b.c` — the full dotted logical key `a.b.c`
is absent; and for the root alias leaf `mail -> email` there is no
idempotent `email -> email` entry. -/
theorem c9_counterexample :
    getPathF gC9 9 0 [] [] =
      some ([("c", "a.b.c"), ("a.c", "a.b.c"), ("b.c", "a.b.c"),
        ("mail", "email")], [2, 1, 0]) ∧
    List.lookup "a.b.c" [("c", "a.b.c"), ("a.c", "a.b.c"),
      ("b.c", "a.b.c"), ("mail", "email")] = none ∧
    List.lookup "email" [("c", "a.b.c"), ("a.c", "a.b.c"),
      ("b.c", "a.b.c"), ("mail", "email")] = none := by
  exact ⟨rfl, rfl, rfl⟩

/-- C9 (amended): for an object node all of whose children are
non-composite, `getPath` maps every non-alias child key to its dotted
physical path (so at the root, every depth-1 leaf's dotted logical key maps
to its physical path), and maps every alias-declaring child's full dotted
logical key to the alias target prefixed by the parent path; it produces no
alias-target-to-itself entry for such direct leaves — any key no child
writes, the alias target in particular, is absent.  For leaves nested more
than two levels deep, the full dotted logical key is not recorded
(shortened two-segment keys replace it, as the counterexample shows). -/
theorem c9_path_index :
    (∀ (g : Graph) (fuel i : Nat) (pk : List String) (vis : List Nat)
        (pre post : List (String × Nat)) (k : String) (cid : Nat)
        (d : Description) (m : PathMap) (vis2 : List Nat) (n : SchemaNode),
      getPathF g (fuel + 1) i pk vis = some (m, vis2) →
      g.find? i = some (.obj (pre ++ (k, cid) :: post) d) → i ∉ vis →
      (∀ e ∈ pre ++ (k, cid) :: post, nonComposite g e.2 = true) →
      g.find? cid = some n → isThrowingLazy n = false → n.desc.path = none →
      (∀ e ∈ post, k ∉ leafWriteKey g pk e) →
      m.lookup k = some (joinDots (pk ++ [k]))) ∧
    (∀ (g : Graph) (fuel i : Nat) (pk : List String) (vis : List Nat)
        (pre post : List (String × Nat)) (k : String) (cid : Nat)
        (d : Description) (m : PathMap) (vis2 : List Nat) (n : SchemaNode)
        (ps : List String),
      getPathF g (fuel + 1) i pk vis = some (m, vis2) →
      g.find? i = some (.obj (pre ++ (k, cid) :: post) d) → i ∉ vis →
      (∀ e ∈ pre ++ (k, cid) :: post, nonComposite g e.2 = true) →
      g.find? cid = some n → isThrowingLazy n = false →
      n.desc.path = some ps →
      (∀ e ∈ post, joinDots (pk ++ [k]) ∉ leafWriteKey g pk e) →
      m.lookup (joinDots (pk ++ [k])) = some (joinDots (pk ++ ps))) ∧
    (∀ (g : Graph) (fuel i : Nat) (pk : List String) (vis : List Nat)
        (shape : List (String × Nat)) (d : Description) (m : PathMap)
        (vis2 : List Nat) (q : String),
      getPathF g (fuel + 1) i pk vis = some (m, vis2) →
      g.find? i = some (.obj shape d) → i ∉ vis →
      (∀ e ∈ shape, nonComposite g e.2 = true) →
      (∀ e ∈ shape, q ∉ leafWriteKey g pk e) →
      m.lookup q = none) := by
  refine ⟨?_, ?_, ?_⟩
  · intro g fuel i pk vis pre post k cid d m vis2 n hcall hfind hv hall hn
      hth hp hkpost
    rw [getPathF_allLeaf g fuel i pk vis _ d hfind hv hall] at hcall
    simp only [Option.some.injEq, Prod.mk.injEq] at hcall
    rw [← hcall.1]
    rw [List.foldl_append, List.foldl_cons]
    rw [foldl_leafWrite_frame g pk post _ k hkpost]
    unfold leafWrite
    rw [hn]
    simp only [hth, Bool.false_eq_true, if_false, hp]
    exact lookup_assign_self _ k _
  · intro g fuel i pk vis pre post k cid d m vis2 n ps hcall hfind hv hall
      hn hth hp hkpost
    rw [getPathF_allLeaf g fuel i pk vis _ d hfind hv hall] at hcall
    simp only [Option.some.injEq, Prod.mk.injEq] at hcall
    rw [← hcall.1]
    rw [List.foldl_append, List.foldl_cons]
    rw [foldl_leafWrite_frame g pk post _ (joinDots (pk ++ [k])) hkpost]
    unfold leafWrite
    rw [hn]
    simp only [hth, Bool.false_eq_true, if_false, hp]
    exact lookup_assign_self _ _ _
  · intro g fuel i pk vis shape d m vis2 q hcall hfind hv hall hq
    rw [getPathF_allLeaf g fuel i pk vis _ d hfind hv hall] at hcall
    simp only [Option.some.injEq, Prod.mk.injEq] at hcall
    rw [← hcall.1]
    rw [foldl_leafWrite_frame g pk shape _ q hq]
    rfl

/-- Witness for C9 on `gAliasP`: `getPath` yields
`{name: name, mail: email}` — the alias's full key maps to the target, the
plain leaf to itself, and no `email -> email` self-entry exists. -/
theorem c9_witness :
    List.lookup "name" [("name", "name"), ("mail", "email")] =
      some (joinDots ["name"]) ∧
    List.lookup "mail" [("name", "name"), ("mail", "email")] =
      some (joinDots ["email"]) ∧
    List.lookup "email" [("name", "name"), ("mail", "email")] = none := by
  refine ⟨?_, ?_, ?_⟩
  · exact c9_path_index.1 gAliasP 1 0 [] [] [] [("mail", 2)] "name" 1 {} _
      [0] (.leaf {}) (by rfl) (by rfl) (by simp) (by decide) (by rfl)
      (by rfl) (by rfl) (by decide)
  · exact c9_path_index.2.1 gAliasP 1 0 [] [] [("name", 1)] [] "mail" 2 {}
      _ [0] (.leaf { path := some ["email"] }) ["email"] (by rfl) (by rfl)
      (by simp) (by decide) (by rfl) (by rfl) (by rfl) (by decide)
  · exact c9_path_index.2.2 gAliasP 1 0 [] [] [("name", 1), ("mail", 2)] {}
      _ [0] "email" (by rfl) (by rfl) (by simp) (by decide) (by decide)
